import Mathlib

/-!
Verification of the scrabble_word_generator core against its specification.

The Python source is shallowly embedded: the 15x15 numpy board becomes a
total function from integer coordinates to `Option Char` (with `none` for
the empty string cell), exceptions become `Except String`, and Python lists
become Lean lists.  Strings are represented as `List Char`.  Scope notes:
character predicates (`isalpha`, `islower`, `upper`, `lower`) are embedded
with their ASCII meaning.
-/

namespace Scrabble

/-- A board coordinate `[row, col]` as carried in an addition triple. -/
abbrev Pos := Int × Int

/-- One new tile of a move: `(letter, [row, col])`. -/
abbrev Addition := Char × Pos

/-- The 15x15 board: a cell holds a letter (`some ch`) or is empty (`none`),
mirroring numpy cells holding a one-character string or `''`. -/
abbrev Board := Int → Int → Option Char

/-- The `Rule` object of `resources/rule_definitions.py`, abstracted: a total
per-letter point table (the source's `letter_points.get(ch, 0)` with its 0
default baked in), the two 15x15 multiplier grids, and the word list. -/
structure ScrabbleRule where
  letterPoints : Char → Int
  wordMultiplier : Int → Int → Int
  letterMultiplier : Int → Int → Int
  dict : List (List Char)

/-- The standard Scrabble starting position, `Game.start_pos = (7, 7)`. -/
def startPos : Pos := (7, 7)

/-- Write one cell of the board. -/
def updateCell (b : Board) (r c : Int) (ch : Char) : Board :=
  fun r0 c0 => if r0 = r ∧ c0 = c then some ch else b r0 c0

/-- Apply a list of additions to a board in order (later writes win), as the
sequential `temp_board[row, col] = letter` loops in `game_state.py`. -/
def applyAdditions (b : Board) (adds : List Addition) : Board :=
  adds.foldl (fun bb a => updateCell bb a.2.1 a.2.2 a.1) b

/-- All in-range coordinates of the 15x15 grid. -/
def gridCells : List Pos :=
  (List.range 15).flatMap fun r =>
    (List.range 15).map fun c => ((r : Int), (c : Int))

/-- Number of occupied cells, `np.sum(self.board != '')`. -/
def boardCount (b : Board) : Nat :=
  gridCells.countP fun p => (b p.1 p.2).isSome

/-- The inclusive integer range `[s, s+1, ..., e]` (empty when `e < s`). -/
def intRangeIncl (s e : Int) : List Int :=
  (List.range (e + 1 - s).toNat).map fun k => s + (k : Int)

/-- Maximal runs of `true` cells (as inclusive index pairs) among indices
`0..14`, in increasing order: the `np.split`/`occupied_segments` computation
of `_extract_word_positions` restricted to the occupied segments. -/
def runsAux (occ : Int → Bool) : List Int → Option (Int × Int) → List (Int × Int)
  | [], none => []
  | [], some run => [run]
  | j :: rest, none =>
      if occ j then runsAux occ rest (some (j, j)) else runsAux occ rest none
  | j :: rest, some (s, e) =>
      if occ j then runsAux occ rest (some (s, j))
      else (s, e) :: runsAux occ rest none

/-- Occupied segments of one line of the board (indices `0..14`). -/
def occRuns (occ : Int → Bool) : List (Int × Int) :=
  runsAux occ ((List.range 15).map fun k => (k : Int)) none

/-- Embedding of `Game._extract_word_positions`.  The Python function reads
`temp_board` only through `!= ''` tests, so the embedding takes the occupancy
predicate of the overlaid board together with the addition positions, and
returns the formed words as position lists (main word first, then one cross
word per addition position, in addition order; only runs of length >= 2). -/
def extractWordPositions (occ : Int → Int → Bool) (positions : List Pos) :
    List (List Pos) :=
  match positions with
  | [] => []
  | p0 :: rest =>
    let rows := (p0 :: rest).map Prod.fst
    if (rows.dedup).length = 1 then
      -- horizontal branch: `len(unique_rows) == 1`
      let row := p0.1
      let minc := rest.foldl (fun m a => min m a.2) p0.2
      let maxc := rest.foldl (fun m a => max m a.2) p0.2
      let mainRuns := occRuns (fun j => occ row j)
      let main :=
        match mainRuns.find? (fun se => minc ≤ se.2 ∧ se.1 ≤ maxc) with
        | some (s, e) =>
            if s < e then [(intRangeIncl s e).map (fun c => (row, c))] else []
        | none => []
      let crosses := (p0 :: rest).filterMap fun p =>
        let c := p.2
        if occ row c then
          match (occRuns (fun i => occ i c)).find? (fun se => se.1 ≤ row ∧ row ≤ se.2) with
          | some (s, e) =>
              if s < e then some ((intRangeIncl s e).map (fun r => (r, c))) else none
          | none => none
        else none
      main ++ crosses
    else
      -- vertical branch: `col = unique_cols[0]` is the least column
      let col := rest.foldl (fun m a => min m a.2) p0.2
      let minr := rest.foldl (fun m a => min m a.1) p0.1
      let maxr := rest.foldl (fun m a => max m a.1) p0.1
      let mainRuns := occRuns (fun i => occ i col)
      let main :=
        match mainRuns.find? (fun se => minr ≤ se.2 ∧ se.1 ≤ maxr) with
        | some (s, e) =>
            if s < e then [(intRangeIncl s e).map (fun r => (r, col))] else []
        | none => []
      let crosses := (p0 :: rest).filterMap fun p =>
        let r := p.1
        if occ r col then
          match (occRuns (fun j => occ r j)).find? (fun se => se.1 ≤ col ∧ col ≤ se.2) with
          | some (s, e) =>
              if s < e then some ((intRangeIncl s e).map (fun c => (r, c))) else none
          | none => none
        else none
      main ++ crosses

/-- The letters of a word read off the board along a position list. -/
def wordAt (tb : Board) (pl : List Pos) : List Char :=
  pl.map fun p => (tb p.1 p.2).getD ' '

/-- Embedding of `Game._get_all_affected_words`: overlay the additions on a
scratch board and collect the formed word strings as a set (Python `set`,
here a deduplicated list). -/
def allAffectedWords (b : Board) (adds : List Addition) : List (List Char) :=
  match adds with
  | [] => []
  | _ =>
    let tb := applyAdditions b adds
    let wps := extractWordPositions (fun r c => (tb r c).isSome) (adds.map Prod.snd)
    (wps.map fun pl => wordAt tb pl).dedup

/-- One step of `score_word`'s loop: the running `(letter_sum, word_mult)`
state updated by one cell of the word. -/
def scoreStep (rule : ScrabbleRule) (tb : Board) (blankPos newPos : List Pos)
    (st : Int × Int) (p : Pos) : Int × Int :=
  let ch := (tb p.1 p.2).getD ' '
  let base : Int := if p ∈ blankPos then 0 else rule.letterPoints ch.toUpper
  if p ∈ newPos then
    (st.1 + base * rule.letterMultiplier p.1 p.2,
     st.2 * max 1 (rule.wordMultiplier p.1 p.2))
  else (st.1 + base, st.2)

/-- Embedding of the inner `score_word` of `Game.score_calculator`. -/
def scoreWord (rule : ScrabbleRule) (tb : Board) (blankPos newPos : List Pos)
    (pl : List Pos) : Int :=
  let st := pl.foldl (scoreStep rule tb blankPos newPos) (0, 1)
  st.1 * st.2

/-- Embedding of `Game.score_calculator`. -/
def scoreCalculator (rule : ScrabbleRule) (b : Board) (adds : List Addition)
    (bingo : Bool) : Int :=
  match adds with
  | [] => 0
  | _ =>
    let blankPos := adds.filterMap fun a =>
      if a.1.isAlpha ∧ a.1.isLower then some a.2 else none
    let normAdds := adds.map fun a => (a.1.toUpper, a.2)
    let tb := applyAdditions b normAdds
    let newPos := normAdds.map Prod.snd
    let wps := extractWordPositions (fun r c => (tb r c).isSome) newPos
    let total := (wps.map (scoreWord rule tb blankPos newPos)).sum
    if bingo ∨ adds.length = 7 then total + 50 else total

/-- The specification's per-word score (spec section 4.4, quoted by claim C1):
`letterSum` multiplies the base value by the letter multiplier on newly
placed cells only, and the word multiplier is the product over newly placed
cells of the word multiplier floored at 1; base value is 0 on a
resolved-blank cell. -/
def claimWordScore (rule : ScrabbleRule) (tb : Board) (blankPos newPos : List Pos)
    (pl : List Pos) : Int :=
  let base : Pos → Int := fun p =>
    if p ∈ blankPos then 0 else rule.letterPoints ((tb p.1 p.2).getD ' ').toUpper
  let letterSum :=
    (pl.map fun p =>
      if p ∈ newPos then base p * rule.letterMultiplier p.1 p.2 else base p).sum
  let wordMult :=
    ((pl.filter fun p => p ∈ newPos).map fun p => max 1 (rule.wordMultiplier p.1 p.2)).prod
  letterSum * wordMult

/-- The specification's move score: the sum, over the formed words of the
placement, of the claim's per-word score (no bonus term). -/
def claimMoveScore (rule : ScrabbleRule) (b : Board) (adds : List Addition) : Int :=
  let blankPos := adds.filterMap fun a =>
    if a.1.isAlpha ∧ a.1.isLower then some a.2 else none
  let normAdds := adds.map fun a => (a.1.toUpper, a.2)
  let tb := applyAdditions b normAdds
  let newPos := normAdds.map Prod.snd
  let wps := extractWordPositions (fun r c => (tb r c).isSome) newPos
  (wps.map (claimWordScore rule tb blankPos newPos)).sum

lemma scoreWord_foldl (rule : ScrabbleRule) (tb : Board) (blankPos newPos : List Pos)
    (pl : List Pos) (a m : Int) :
    pl.foldl (scoreStep rule tb blankPos newPos) (a, m) =
      (a + (pl.map fun p =>
              (if p ∈ blankPos then 0 else rule.letterPoints ((tb p.1 p.2).getD ' ').toUpper) *
                (if p ∈ newPos then rule.letterMultiplier p.1 p.2 else 1)).sum,
       m * ((pl.filter fun p => p ∈ newPos).map
              fun p => max 1 (rule.wordMultiplier p.1 p.2)).prod) := by
  induction pl generalizing a m with
  | nil => simp
  | cons p rest ih =>
    by_cases hnew : p ∈ newPos
    · have hfil : (p :: rest).filter (fun q => q ∈ newPos) =
          p :: rest.filter (fun q => q ∈ newPos) :=
        List.filter_cons_of_pos (by simpa using hnew)
      simp only [List.foldl_cons, scoreStep, hnew, if_pos]
      rw [ih, hfil]
      by_cases hb : p ∈ blankPos <;>
        simp only [hb, hnew, if_pos, if_neg, List.map_cons, List.sum_cons, List.prod_cons,
          not_false_iff, Prod.mk.injEq] <;>
      · exact ⟨by ring_nf, by ring_nf⟩
    · have hfil : (p :: rest).filter (fun q => q ∈ newPos) =
          rest.filter (fun q => q ∈ newPos) :=
        List.filter_cons_of_neg (by simpa using hnew)
      simp only [List.foldl_cons, scoreStep, hnew, if_neg, not_false_iff]
      rw [ih, hfil]
      by_cases hb : p ∈ blankPos <;>
        simp only [hb, hnew, if_pos, if_neg, List.map_cons, List.sum_cons, not_false_iff,
          Prod.mk.injEq] <;>
      · exact ⟨by ring_nf, by ring_nf⟩

lemma scoreWord_eq_claim (rule : ScrabbleRule) (tb : Board) (blankPos newPos : List Pos)
    (pl : List Pos) :
    scoreWord rule tb blankPos newPos pl = claimWordScore rule tb blankPos newPos pl := by
  unfold scoreWord claimWordScore
  rw [scoreWord_foldl]
  simp only [zero_add, one_mul]
  congr 1
  congr 1
  apply List.map_congr_left
  intro p _
  by_cases hb : p ∈ blankPos <;> by_cases hn : p ∈ newPos <;> simp [hb, hn]

/-- Shared helper: `score_calculator` always computes the claim's per-word sum
plus the bonus term (50 exactly when the placement is non-empty and either
the flag is forced or exactly 7 tiles were placed). -/
lemma scoreCalculator_eq (rule : ScrabbleRule) (b : Board) (adds : List Addition)
    (bingo : Bool) :
    scoreCalculator rule b adds bingo =
      claimMoveScore rule b adds +
        (if adds ≠ [] ∧ (bingo = true ∨ adds.length = 7) then 50 else 0) := by
  match adds with
  | [] => simp [scoreCalculator, claimMoveScore, extractWordPositions]
  | a :: rest =>
    simp only [scoreCalculator, claimMoveScore]
    have hmap : ∀ (tb : Board) (bp np : List Pos) (wps : List (List Pos)),
        (wps.map (scoreWord rule tb bp np)).sum = (wps.map (claimWordScore rule tb bp np)).sum := by
      intro tb bp np wps
      congr 1
      apply List.map_congr_left
      intro pl _
      exact scoreWord_eq_claim rule tb bp np pl
    rw [hmap]
    by_cases h : bingo = true ∨ rest.length = 6 <;> simp [h]

/-- C1. For every board, placement and rule, when no bonus applies (flag not
forced and not exactly 7 new tiles) the move score computed by
`Game.score_calculator` equals the sum over each formed word of
(sum over cells of baseValue x letterMultiplier if newly placed else
baseValue) times the product over newly placed cells of the word multiplier
floored at 1, with baseValue 0 on resolved-blank (lower-case) tiles. -/
theorem score_calculator_matches_spec_formula (rule : ScrabbleRule) (b : Board)
    (adds : List Addition) (bingo : Bool) (hb : bingo = false) (h7 : adds.length ≠ 7) :
    scoreCalculator rule b adds bingo = claimMoveScore rule b adds := by
  rw [scoreCalculator_eq]
  have : ¬(adds ≠ [] ∧ (bingo = true ∨ adds.length = 7)) := by
    rintro ⟨-, h | h⟩
    · rw [hb] at h; cases h
    · exact h7 h
  simp [this]

/-- A concrete rule with unit letter values and identity multiplier grids. -/
def testRule : ScrabbleRule :=
  ⟨fun _ => 1, fun _ _ => 1, fun _ _ => 1, [['c', 'a', 't']]⟩

/-- The empty board. -/
def emptyBoard : Board := fun _ _ => none

/-- Witness for C1 at a concrete input: two fresh tiles scoring 1 each. -/
theorem score_calculator_matches_spec_formula_witness :
    scoreCalculator testRule emptyBoard [('A', (7, 7)), ('B', (7, 8))] false = 2 ∧
      claimMoveScore testRule emptyBoard [('A', (7, 7)), ('B', (7, 8))] = 2 := by
  have h := score_calculator_matches_spec_formula testRule emptyBoard
    [('A', (7, 7)), ('B', (7, 8))] false rfl (by decide)
  have h2 : claimMoveScore testRule emptyBoard [('A', (7, 7)), ('B', (7, 8))] = 2 := by decide
  exact ⟨h.trans h2, h2⟩


/-- C10 counterexample. The claim says the bonus is added whenever the flag is
explicitly forced, but `score_calculator` returns 0 outright for an empty
additions list even with `bingo=True`: no 50 is added. -/
theorem bingo_bonus_claim_counterexample :
    scoreCalculator testRule emptyBoard [] true ≠
      claimMoveScore testRule emptyBoard [] + 50 := by
  decide

/-- C10 (amended). For every non-empty placement, `Game.score_calculator`
adds exactly 50 on top of the per-word total iff the placement has exactly 7
new tiles or the bonus flag is explicitly forced; otherwise no bonus is
added.  (The empty placement short-circuits to 0 and never gets the bonus.) -/
theorem bingo_bonus_iff (rule : ScrabbleRule) (b : Board) (adds : List Addition)
    (bingo : Bool) (hne : adds ≠ []) :
    (scoreCalculator rule b adds bingo = claimMoveScore rule b adds + 50 ↔
      (bingo = true ∨ adds.length = 7)) ∧
    (¬(bingo = true ∨ adds.length = 7) →
      scoreCalculator rule b adds bingo = claimMoveScore rule b adds) := by
  rw [scoreCalculator_eq]
  constructor
  · by_cases h : bingo = true ∨ adds.length = 7
    · simp [hne, h]
    · simp [hne, h]
  · intro h
    simp [hne, h]

/-- Witness for C10 at a concrete input: a 7-tile placement gets the bonus,
and the same placement minus a tile with the flag off does not. -/
theorem bingo_bonus_iff_witness :
    scoreCalculator testRule emptyBoard
        [('A', (7, 1)), ('B', (7, 2)), ('C', (7, 3)), ('D', (7, 4)),
         ('E', (7, 5)), ('F', (7, 6)), ('G', (7, 7))] false =
      claimMoveScore testRule emptyBoard
        [('A', (7, 1)), ('B', (7, 2)), ('C', (7, 3)), ('D', (7, 4)),
         ('E', (7, 5)), ('F', (7, 6)), ('G', (7, 7))] + 50 := by
  exact (bingo_bonus_iff testRule emptyBoard
    [('A', (7, 1)), ('B', (7, 2)), ('C', (7, 3)), ('D', (7, 4)),
     ('E', (7, 5)), ('F', (7, 6)), ('G', (7, 7))] false (by decide)).1.mpr
    (Or.inr (by decide))


/-- In-bounds test `0 <= row < 15 and 0 <= col < 15`. -/
def inBoundsPos (p : Pos) : Bool :=
  decide (0 ≤ p.1 ∧ p.1 < 15 ∧ 0 ≤ p.2 ∧ p.2 < 15)

/-- Least value of `x :: l` (numpy `min` over the coordinate array). -/
def listMin (x : Int) (l : List Int) : Int := l.foldl min x

/-- Greatest value of `x :: l` (numpy `max` over the coordinate array). -/
def listMax (x : Int) (l : List Int) : Int := l.foldl max x

/-- Message of the out-of-bounds `ValueError`. -/
def mkOutOfBoundsMsg (p : Pos) : String :=
  s!"Position ({p.1},{p.2}) is out of bounds"

/-- Message of the overlap `ValueError`. -/
def mkOccupiedMsg (p : Pos) : String :=
  s!"Position ({p.1},{p.2}) is already occupied"

/-- Embedding of `Game._verify_word_addition`: positional checks in source
order (empty, bounds, overlap, collinearity, continuity via coordinate span). -/
def verifyWordAddition (b : Board) (adds : List Addition) : Except String Unit :=
  match adds with
  | [] => .error "No letters provided for addition"
  | a0 :: rest =>
    match (a0 :: rest).find? (fun x => ¬ inBoundsPos x.2) with
    | some x => .error (mkOutOfBoundsMsg x.2)
    | none =>
      match (a0 :: rest).find? (fun x => (b x.2.1 x.2.2).isSome) with
      | some x => .error (mkOccupiedMsg x.2)
      | none =>
        let rows := (a0 :: rest).map fun x => x.2.1
        let cols := (a0 :: rest).map fun x => x.2.2
        if rows.dedup.length > 1 ∧ cols.dedup.length > 1 then
          .error "Letters must be placed in a single row or column"
        else if rows.dedup.length = 1 then
          if listMax a0.2.2 (rest.map fun x => x.2.2) -
               listMin a0.2.2 (rest.map fun x => x.2.2) + 1 =
             (a0 :: rest).length then
            .ok ()
          else .error "Letters must form a continuous line without gaps"
        else
          if listMax a0.2.1 (rest.map fun x => x.2.1) -
               listMin a0.2.1 (rest.map fun x => x.2.1) + 1 =
             (a0 :: rest).length then
            .ok ()
          else .error "Letters must form a continuous line without gaps"

/-- Embedding of `Game._touches_existing_word`: some addition has an
orthogonal in-bounds occupied neighbour. -/
def touchesExistingWord (b : Board) (adds : List Addition) : Bool :=
  match adds with
  | [] => false
  | _ =>
    adds.any fun a =>
      [((-1 : Int), (0 : Int)), (1, 0), (0, -1), (0, 1)].any fun d =>
        let q : Pos := (a.2.1 + d.1, a.2.2 + d.2)
        inBoundsPos q ∧ (b q.1 q.2).isSome

/-- Embedding of `Game._check_board_valid`: first move must cover the start
square; later moves must touch an existing tile. -/
def checkBoardValid (b : Board) (adds : List Addition) : Except String Unit :=
  if boardCount b = 0 then
    if adds.any (fun a => a.2.1 = startPos.1 ∧ a.2.2 = startPos.2) then .ok ()
    else .error "First word must cover the starting square"
  else
    if touchesExistingWord b adds then .ok ()
    else .error "New letters must connect to existing words"

/-- Indices of wildcard (`'-'`) additions, `wildcard_indices`. -/
def wildcardIndices (adds : List Addition) : List Nat :=
  adds.enum.filterMap fun ia => if ia.2.1 = '-' then some ia.1 else none

/-- The uppercase alphabet, `string.ascii_uppercase`. -/
def uppercaseAlphabet : List Char := "ABCDEFGHIJKLMNOPQRSTUVWXYZ".toList

/-- All letter tuples of length `n` over the uppercase alphabet, in
`itertools.product(ascii_uppercase, repeat=n)` order. -/
def charProduct : Nat → List (List Char)
  | 0 => [[]]
  | n + 1 => uppercaseAlphabet.flatMap fun c => (charProduct n).map (c :: ·)

/-- Overwrite the letter at each listed index, keeping the position
(`additions[wc_idx] = (letter, additions[wc_idx][1])`). -/
def setLetters (l : List Addition) (ps : List (Nat × Char)) : List Addition :=
  ps.foldl
    (fun l ic =>
      match l.get? ic.1 with
      | some a => l.set ic.1 (ic.2, a.2)
      | none => l)
    l

/-- Overwrite the additions at the wildcard indices with the given letters. -/
def applyCombo (adds : List Addition) (widx : List Nat) (combo : List Char) :
    List Addition :=
  setLetters adds (widx.zip combo)

/-- All formed words are dictionary words (lower-cased lookup). -/
def allWordsValid (rule : ScrabbleRule) (b : Board) (adds : List Addition) : Bool :=
  (allAffectedWords b adds).all fun w => rule.dict.contains (w.map Char.toLower)

/-- The `valid_combinations` list of `Game._check_word_valid`: every letter
tuple over the alphabet whose substitution makes all affected words valid. -/
def validCombos (rule : ScrabbleRule) (b : Board) (adds : List Addition) :
    List (List Char) :=
  (charProduct (wildcardIndices adds).length).filter fun combo =>
    allWordsValid rule b (applyCombo adds (wildcardIndices adds) combo)

/-- Message of the no-valid-wildcard-combination `ValueError`, naming the
unresolved wildcard positions. -/
def mkNoComboMsg (ps : List Pos) : String :=
  s!"No valid letter combination found for wildcards at positions {ps}"

/-- Message of the invalid-words `ValueError` (profanity abridged). -/
def mkInvalidWordsMsg (ws : List (List Char)) : String :=
  "Formed invalid words: " ++ String.intercalate ", " (ws.map fun w => String.mk w)

/-- The board positions of the wildcard additions. -/
def wildcardPositions (adds : List Addition) : List Pos :=
  (wildcardIndices adds).filterMap fun i => (adds.get? i).map Prod.snd

/-- Embedding of `Game._check_word_valid`.  The in-place mutation of
`additions` is rendered by returning the (possibly wildcard-resolved)
additions list; `random.choice` is abstracted by the `pick` argument. -/
def checkWordValid (rule : ScrabbleRule) (pick : List (List Char) → List Char)
    (b : Board) (adds : List Addition) : Except String (List Addition) :=
  match adds.find? (fun a => (b a.2.1 a.2.2).isSome) with
  | some a => .error (mkOccupiedMsg a.2)
  | none =>
    if wildcardIndices adds = [] then
      let invalid := (allAffectedWords b adds).filter fun w =>
        ¬ rule.dict.contains (w.map Char.toLower)
      if invalid = [] then .ok adds else .error (mkInvalidWordsMsg invalid)
    else
      let combos := validCombos rule b adds
      if combos = [] then .error (mkNoComboMsg (wildcardPositions adds))
      else
        .ok (applyCombo adds (wildcardIndices adds) ((pick combos).map Char.toLower))

/-- Embedding of `Game._update`: write the additions (upper-cased) onto the
board. -/
def updateBoard (b : Board) (adds : List Addition) : Board :=
  applyAdditions b (adds.map fun a => (a.1.toUpper, a.2))

/-- Embedding of `Game.new_move`, returning the move outcome together with
the resulting board (the Python object state after the call). -/
def newMove (rule : ScrabbleRule) (pick : List (List Char) → List Char)
    (b : Board) (adds : List Addition) : Except String Int × Board :=
  let up := adds.map fun a => (a.1.toUpper, a.2)
  match verifyWordAddition b up with
  | .error e => (.error e, b)
  | .ok _ =>
    match checkBoardValid b up with
    | .error e => (.error e, b)
    | .ok _ =>
      match checkWordValid rule pick b up with
      | .error e => (.error e, b)
      | .ok resolved =>
        (.ok (scoreCalculator rule b resolved false), updateBoard b resolved)


lemma dedup_length_eq_one_iff (x : Int) (l : List Int) :
    ((x :: l).dedup).length = 1 ↔ ∀ y ∈ x :: l, y = x := by
  constructor
  · intro h y hy
    obtain ⟨a, ha⟩ := List.length_eq_one.mp h
    have hya : y = a := by
      have hm : y ∈ (x :: l).dedup := List.mem_dedup.mpr hy
      rw [ha] at hm; simpa using hm
    have hxa : x = a := by
      have hm : x ∈ (x :: l).dedup := List.mem_dedup.mpr (by simp)
      rw [ha] at hm; simpa using hm
    rw [hya, hxa]
  · intro h
    have hx : x ∈ (x :: l).dedup := List.mem_dedup.mpr (by simp)
    have hnd := (x :: l).nodup_dedup
    cases hd : (x :: l).dedup with
    | nil => rw [hd] at hx; cases hx
    | cons a t =>
      cases t with
      | nil => rfl
      | cons b t2 =>
        exfalso
        rw [hd] at hnd
        have hma : a ∈ (x :: l).dedup := by rw [hd]; simp
        have hmb : b ∈ (x :: l).dedup := by rw [hd]; simp
        have ha : a = x := h a (List.mem_dedup.mp hma)
        have hb : b = x := h b (List.mem_dedup.mp hmb)
        have hab : a ≠ b := by
          intro hab
          exact (List.nodup_cons.mp hnd).1 (by rw [hab]; simp)
        exact hab (ha.trans hb.symm)

lemma dedup_length_gt_one_iff (x : Int) (l : List Int) :
    ((x :: l).dedup).length > 1 ↔ ∃ y ∈ x :: l, y ≠ x := by
  have hx : x ∈ (x :: l).dedup := List.mem_dedup.mpr (by simp)
  have hpos : 0 < ((x :: l).dedup).length :=
    List.length_pos.mpr (by rintro hh; rw [hh] at hx; cases hx)
  constructor
  · intro h
    by_contra hc
    push_neg at hc
    have h1 : ((x :: l).dedup).length = 1 := (dedup_length_eq_one_iff x l).mpr hc
    omega
  · rintro ⟨y, hy, hne⟩
    rcases Nat.lt_or_ge 1 ((x :: l).dedup).length with h | h
    · exact h
    · exfalso
      have h1 : ((x :: l).dedup).length = 1 := by omega
      exact hne ((dedup_length_eq_one_iff x l).mp h1 y hy)

lemma map_dedup_len_one (f : Addition → Int) (a0 : Addition) (rest : List Addition) :
    ((((a0 :: rest).map f).dedup).length = 1) ↔ ∀ a ∈ a0 :: rest, f a = f a0 := by
  rw [List.map_cons, dedup_length_eq_one_iff]
  constructor
  · intro h a ha
    apply h
    rw [← List.map_cons]
    exact List.mem_map.mpr ⟨a, ha, rfl⟩
  · intro h y hy
    rw [← List.map_cons] at hy
    obtain ⟨a, ha, rfl⟩ := List.mem_map.mp hy
    exact h a ha

lemma map_dedup_len_gt (f : Addition → Int) (a0 : Addition) (rest : List Addition) :
    ((((a0 :: rest).map f).dedup).length > 1) ↔ ∃ a ∈ a0 :: rest, f a ≠ f a0 := by
  rw [List.map_cons, dedup_length_gt_one_iff]
  constructor
  · rintro ⟨y, hy, hne⟩
    rw [← List.map_cons] at hy
    obtain ⟨a, ha, rfl⟩ := List.mem_map.mp hy
    exact ⟨a, ha, hne⟩
  · rintro ⟨a, ha, hne⟩
    refine ⟨f a, ?_, hne⟩
    rw [← List.map_cons]
    exact List.mem_map.mpr ⟨a, ha, rfl⟩

/-- The geometry acceptance condition as claim C7 words it: non-empty, all
positions inside the 15x15 bounds, no overlap with occupied cells, not
spanning both more than one row and more than one column, and the shared-axis
coordinate span (max - min + 1) equal to the number of new tiles. -/
def claimGeometry (b : Board) (adds : List Addition) : Prop :=
  match adds with
  | [] => False
  | a0 :: rest =>
    (∀ a ∈ a0 :: rest, 0 ≤ a.2.1 ∧ a.2.1 < 15 ∧ 0 ≤ a.2.2 ∧ a.2.2 < 15) ∧
    (∀ a ∈ a0 :: rest, b a.2.1 a.2.2 = none) ∧
    ¬((∃ a ∈ a0 :: rest, a.2.1 ≠ a0.2.1) ∧ (∃ a ∈ a0 :: rest, a.2.2 ≠ a0.2.2)) ∧
    (if ∀ a ∈ a0 :: rest, a.2.1 = a0.2.1 then
       listMax a0.2.2 (rest.map fun x => x.2.2) -
         listMin a0.2.2 (rest.map fun x => x.2.2) + 1 = ((a0 :: rest).length : Int)
     else
       listMax a0.2.1 (rest.map fun x => x.2.1) -
         listMin a0.2.1 (rest.map fun x => x.2.1) + 1 = ((a0 :: rest).length : Int))

/-- C7. `Game._verify_word_addition` accepts a placement exactly when none of
the claim's rejection cases applies: it rejects empty placements,
out-of-bounds positions, overlap with occupied cells, non-collinear
placements, and placements whose shared-axis coordinate span differs from the
number of new tiles; otherwise it accepts. -/
theorem verify_geometry_ok_iff (b : Board) (adds : List Addition) :
    verifyWordAddition b adds = .ok () ↔ claimGeometry b adds := by
  match adds with
  | [] => simp [verifyWordAddition, claimGeometry]
  | a0 :: rest =>
    unfold verifyWordAddition claimGeometry
    rcases hf1 : (a0 :: rest).find? (fun x => ¬ inBoundsPos x.2) with - | x
    · rcases hf2 : (a0 :: rest).find? (fun x => (b x.2.1 x.2.2).isSome) with - | x
      · simp only [hf1, hf2]
        have hb1 : ∀ a ∈ a0 :: rest, 0 ≤ a.2.1 ∧ a.2.1 < 15 ∧ 0 ≤ a.2.2 ∧ a.2.2 < 15 := by
          intro a ha
          have := List.find?_eq_none.mp hf1 a ha
          simpa [inBoundsPos] using this
        have hb2 : ∀ a ∈ a0 :: rest, b a.2.1 a.2.2 = none := by
          intro a ha
          have hfind := List.find?_eq_none.mp hf2 a ha
          cases hopt : b a.2.1 a.2.2 with
          | none => rfl
          | some c => rw [hopt] at hfind; simp at hfind
        by_cases hcol : ∀ a ∈ a0 :: rest, a.2.1 = a0.2.1
        · have h1 : ((((a0 :: rest).map fun x => x.2.1).dedup).length = 1) :=
            (map_dedup_len_one _ a0 rest).mpr hcol
          have hn1 : ¬ ((((a0 :: rest).map fun x => x.2.1).dedup).length > 1) := by omega
          have hnc : ¬((∃ a ∈ a0 :: rest, a.2.1 ≠ a0.2.1) ∧
              (∃ a ∈ a0 :: rest, a.2.2 ≠ a0.2.2)) := by
            rintro ⟨⟨a, ha, hne⟩, -⟩
            exact hne (hcol a ha)
          rw [if_neg (by rintro ⟨hc1, -⟩; exact hn1 hc1), if_pos h1]
          by_cases hspan : listMax a0.2.2 (rest.map fun x => x.2.2) -
              listMin a0.2.2 (rest.map fun x => x.2.2) + 1 = ((a0 :: rest).length : Int)
          · rw [if_pos hspan]
            exact iff_of_true rfl ⟨hb1, hb2, hnc, by rw [if_pos hcol]; exact hspan⟩
          · rw [if_neg hspan]
            refine iff_of_false (by intro h; cases h) ?_
            rintro ⟨-, -, -, hsp⟩
            rw [if_pos hcol] at hsp
            exact hspan hsp
        · have h1 : ((((a0 :: rest).map fun x => x.2.1).dedup).length > 1) :=
            (map_dedup_len_gt _ a0 rest).mpr (by push_neg at hcol; exact hcol)
          have hn1 : ¬ ((((a0 :: rest).map fun x => x.2.1).dedup).length = 1) := by omega
          by_cases hrow : ∀ a ∈ a0 :: rest, a.2.2 = a0.2.2
          · have h2 : ((((a0 :: rest).map fun x => x.2.2).dedup).length = 1) :=
              (map_dedup_len_one _ a0 rest).mpr hrow
            have hn2 : ¬ ((((a0 :: rest).map fun x => x.2.2).dedup).length > 1) := by omega
            have hnc : ¬((∃ a ∈ a0 :: rest, a.2.1 ≠ a0.2.1) ∧
                (∃ a ∈ a0 :: rest, a.2.2 ≠ a0.2.2)) := by
              rintro ⟨-, ⟨a, ha, hne⟩⟩
              exact hne (hrow a ha)
            rw [if_neg (by rintro ⟨-, hc2⟩; exact hn2 hc2), if_neg hn1]
            by_cases hspan : listMax a0.2.1 (rest.map fun x => x.2.1) -
                listMin a0.2.1 (rest.map fun x => x.2.1) + 1 = ((a0 :: rest).length : Int)
            · rw [if_pos hspan]
              exact iff_of_true rfl ⟨hb1, hb2, hnc, by rw [if_neg hcol]; exact hspan⟩
            · rw [if_neg hspan]
              refine iff_of_false (by intro h; cases h) ?_
              rintro ⟨-, -, -, hsp⟩
              rw [if_neg hcol] at hsp
              exact hspan hsp
          · have h2 : ((((a0 :: rest).map fun x => x.2.2).dedup).length > 1) :=
              (map_dedup_len_gt _ a0 rest).mpr (by push_neg at hrow; exact hrow)
            have hcl : ((∃ a ∈ a0 :: rest, a.2.1 ≠ a0.2.1) ∧
                (∃ a ∈ a0 :: rest, a.2.2 ≠ a0.2.2)) := by
              constructor
              · push_neg at hcol; exact hcol
              · push_neg at hrow; exact hrow
            rw [if_pos ⟨h1, h2⟩]
            refine iff_of_false (by intro h; cases h) ?_
            rintro ⟨-, -, hn, -⟩
            exact hn hcl
      · simp only [hf1, hf2]
        have hx := List.find?_some hf2
        have hxm := List.mem_of_find?_eq_some hf2
        constructor
        · intro h; cases h
        · rintro ⟨-, h2, -⟩
          rw [h2 x hxm] at hx
          cases hx
    · simp only [hf1]
      have hx := List.find?_some hf1
      have hxm := List.mem_of_find?_eq_some hf1
      refine iff_of_false (by intro h; cases h) ?_
      rintro ⟨h1, -⟩
      have hbd := h1 x hxm
      simp only [inBoundsPos, decide_not, Bool.not_eq_true', decide_eq_false_iff_not,
        decide_eq_true_eq] at hx
      exact hx hbd


/-- Adjacency as claim C8 words it: some new tile has a 4-neighbour,
bounds-clipped, occupied cell. -/
def claimAdjacent (b : Board) (adds : List Addition) : Prop :=
  ∃ a ∈ adds, ∃ d ∈ [((-1 : Int), (0 : Int)), (1, 0), (0, -1), (0, 1)],
    (0 ≤ a.2.1 + d.1 ∧ a.2.1 + d.1 < 15 ∧ 0 ≤ a.2.2 + d.2 ∧ a.2.2 + d.2 < 15) ∧
    (b (a.2.1 + d.1) (a.2.2 + d.2)).isSome = true

lemma touches_iff (b : Board) (adds : List Addition) :
    touchesExistingWord b adds = true ↔ claimAdjacent b adds := by
  match adds with
  | [] =>
    simp [touchesExistingWord, claimAdjacent]
  | a0 :: rest =>
    unfold touchesExistingWord claimAdjacent
    simp only [List.any_eq_true, decide_eq_true_eq, inBoundsPos]

/-- C8. `Game._check_board_valid` on an empty board accepts iff some new tile
covers the centre `(7,7)` and otherwise raises the first-move error; on a
non-empty board it accepts iff some new tile is orthogonally adjacent
(4-neighbour, bounds-clipped) to an occupied cell and otherwise raises the
disconnected error. -/
theorem check_board_rule_spec (b : Board) (adds : List Addition) :
    (boardCount b = 0 →
      ((checkBoardValid b adds = .ok () ↔ ∃ a ∈ adds, a.2 = startPos) ∧
       (¬(∃ a ∈ adds, a.2 = startPos) →
         checkBoardValid b adds = .error "First word must cover the starting square"))) ∧
    (boardCount b ≠ 0 →
      ((checkBoardValid b adds = .ok () ↔ claimAdjacent b adds) ∧
       (¬ claimAdjacent b adds →
         checkBoardValid b adds = .error "New letters must connect to existing words"))) := by
  constructor
  · intro h0
    unfold checkBoardValid
    rw [if_pos h0]
    have hcov : (adds.any fun a => a.2.1 = startPos.1 ∧ a.2.2 = startPos.2) = true ↔
        ∃ a ∈ adds, a.2 = startPos := by
      rw [List.any_eq_true]
      constructor
      · rintro ⟨a, ha, hc⟩
        simp only [decide_eq_true_eq] at hc
        exact ⟨a, ha, Prod.ext hc.1 hc.2⟩
      · rintro ⟨a, ha, hc⟩
        exact ⟨a, ha, by simp [hc]⟩
    constructor
    · by_cases hc : (adds.any fun a => a.2.1 = startPos.1 ∧ a.2.2 = startPos.2) = true
      · rw [if_pos hc]
        exact iff_of_true rfl (hcov.mp hc)
      · rw [if_neg hc]
        exact iff_of_false (by intro h; cases h) (fun hx => hc (hcov.mpr hx))
    · intro hno
      rw [if_neg (fun hc => hno (hcov.mp hc))]
  · intro h0
    unfold checkBoardValid
    rw [if_neg h0]
    constructor
    · by_cases ht : touchesExistingWord b adds = true
      · rw [if_pos ht]
        exact iff_of_true rfl ((touches_iff b adds).mp ht)
      · rw [if_neg ht]
        exact iff_of_false (by intro h; cases h)
          (fun hx => ht ((touches_iff b adds).mpr hx))
    · intro hno
      rw [if_neg (fun ht => hno ((touches_iff b adds).mp ht))]

/-- Witness for C8 at concrete inputs: on the empty board a tile on the
centre is accepted, and on a one-tile board an adjacent tile is accepted. -/
theorem check_board_rule_spec_witness :
    checkBoardValid emptyBoard [('A', (7, 7))] = .ok () ∧
      checkBoardValid (updateCell emptyBoard 7 7 'A') [('B', (7, 8))] = .ok () := by
  constructor
  · exact ((check_board_rule_spec emptyBoard [('A', (7, 7))]).1 (by decide)).1.mpr
      ⟨('A', (7, 7)), by simp, rfl⟩
  · exact ((check_board_rule_spec (updateCell emptyBoard 7 7 'A') [('B', (7, 8))]).2
      (by decide)).1.mpr
      ⟨('B', (7, 8)), by simp, (0, -1), by simp, by norm_num, by norm_num [updateCell]⟩

/-- C2. `Game.new_move` runs geometry, then board rule, then dictionary
validation with wildcard resolution, then scoring, then the commit, in that
order; the first failing stage's error is returned and the board is exactly
the pre-call board, while on success the resolved additions are scored and
committed. -/
theorem new_move_stage_order (rule : ScrabbleRule)
    (pick : List (List Char) → List Char) (b : Board) (adds : List Addition) :
    (∀ e, verifyWordAddition b (adds.map fun a => (a.1.toUpper, a.2)) = .error e →
        newMove rule pick b adds = (.error e, b)) ∧
    (∀ e, verifyWordAddition b (adds.map fun a => (a.1.toUpper, a.2)) = .ok () →
        checkBoardValid b (adds.map fun a => (a.1.toUpper, a.2)) = .error e →
        newMove rule pick b adds = (.error e, b)) ∧
    (∀ e, verifyWordAddition b (adds.map fun a => (a.1.toUpper, a.2)) = .ok () →
        checkBoardValid b (adds.map fun a => (a.1.toUpper, a.2)) = .ok () →
        checkWordValid rule pick b (adds.map fun a => (a.1.toUpper, a.2)) = .error e →
        newMove rule pick b adds = (.error e, b)) ∧
    (∀ res, verifyWordAddition b (adds.map fun a => (a.1.toUpper, a.2)) = .ok () →
        checkBoardValid b (adds.map fun a => (a.1.toUpper, a.2)) = .ok () →
        checkWordValid rule pick b (adds.map fun a => (a.1.toUpper, a.2)) = .ok res →
        newMove rule pick b adds =
          (.ok (scoreCalculator rule b res false), updateBoard b res)) ∧
    (∀ e, (newMove rule pick b adds).1 = .error e → (newMove rule pick b adds).2 = b) := by
  refine ⟨?_, ?_, ?_, ?_, ?_⟩
  · intro e he
    simp only [newMove, he]
  · intro e h1 h2
    simp only [newMove, h1, h2]
  · intro e h1 h2 h3
    simp only [newMove, h1, h2, h3]
  · intro res h1 h2 h3
    simp only [newMove, h1, h2, h3]
  · intro e
    simp only [newMove]
    rcases h1 : verifyWordAddition b (adds.map fun a => (a.1.toUpper, a.2)) with e1 | u1
    · simp only [h1]; intro _; trivial
    · rcases h2 : checkBoardValid b (adds.map fun a => (a.1.toUpper, a.2)) with e2 | u2
      · simp only [h1, h2]; intro _; trivial
      · rcases h3 : checkWordValid rule pick b (adds.map fun a => (a.1.toUpper, a.2)) with
          e3 | res
        · simp only [h1, h2, h3]; intro _; trivial
        · simp only [h1, h2, h3]; intro hco; cases hco

/-- A rule knowing the single word "ab". -/
def testRuleAB : ScrabbleRule :=
  ⟨fun _ => 1, fun _ _ => 1, fun _ _ => 1, [['a', 'b']]⟩

/-- A deterministic stand-in for `random.choice`. -/
def pickHead (l : List (List Char)) : List Char := l.headD []

/-- Witness for C2: a concrete successful move runs all stages and commits. -/
theorem new_move_stage_order_witness :
    newMove testRuleAB pickHead emptyBoard [('A', (7, 7)), ('B', (7, 8))] =
      (.ok (scoreCalculator testRuleAB emptyBoard
              [('A', (7, 7)), ('B', (7, 8))] false),
       updateBoard emptyBoard [('A', (7, 7)), ('B', (7, 8))]) := by
  exact (new_move_stage_order testRuleAB pickHead emptyBoard
      [('A', (7, 7)), ('B', (7, 8))]).2.2.2.1
    [('A', (7, 7)), ('B', (7, 8))] rfl rfl rfl


lemma setLetters_map_snd (ps : List (Nat × Char)) (l : List Addition) :
    (setLetters l ps).map Prod.snd = l.map Prod.snd := by
  induction ps generalizing l with
  | nil => rfl
  | cons ic rest ih =>
    show (setLetters _ rest).map Prod.snd = _
    rcases hg : l.get? ic.1 with - | a
    · simp only [setLetters, List.foldl_cons, hg]
      exact ih l
    · simp only [setLetters, List.foldl_cons, hg]
      rw [show (List.foldl _ (l.set ic.1 (ic.2, a.2)) rest) =
        setLetters (l.set ic.1 (ic.2, a.2)) rest from rfl, ih]
      rw [List.map_set]
      have : (l.map Prod.snd).get? ic.1 = some a.2 := by
        rw [List.get?_eq_getElem?, List.getElem?_map, ← List.get?_eq_getElem?, hg]
        rfl
      rw [List.get?_eq_getElem?] at this
      have hlt : ic.1 < (l.map Prod.snd).length := by
        by_contra hge
        rw [List.getElem?_eq_none (by omega)] at this
        cases this
      apply List.ext_getElem?
      intro n
      by_cases hn : n = ic.1
      · subst hn
        rw [List.getElem?_set_self (by omega), this]
      · rw [List.getElem?_set_ne (by omega)]

lemma setLetters_length (ps : List (Nat × Char)) (l : List Addition) :
    (setLetters l ps).length = l.length := by
  have := congrArg List.length (setLetters_map_snd ps l)
  simpa using this

lemma setLetters_no_dash (ps : List (Nat × Char)) (l : List Addition)
    (hc : ∀ c ∈ ps.map Prod.snd, c ≠ '-')
    (hl : ∀ i a, l.get? i = some a → a.1 = '-' → i ∈ ps.map Prod.fst) :
    ∀ a ∈ setLetters l ps, a.1 ≠ '-' := by
  induction ps generalizing l with
  | nil =>
    intro a ha hdash
    obtain ⟨i, hi⟩ := List.mem_iff_get?.mp ha
    exact absurd (hl i a hi hdash) (by simp)
  | cons ic rest ih =>
    intro a ha
    rcases hg : l[ic.1]? with - | a0
    · refine ih l (fun c hcm => hc c (by simp [hcm])) ?_ a
        (by simpa [setLetters, List.foldl_cons, hg] using ha)
      intro i x hi hdash
      rcases (by simpa using hl i x hi hdash : i = ic.1 ∨ ∃ y, (i, y) ∈ rest) with
        h0 | ⟨y, hy⟩
      · exfalso
        rw [h0, List.get?_eq_getElem?, hg] at hi
        cases hi
      · exact List.mem_map.mpr ⟨(i, y), hy, rfl⟩
    · refine ih (l.set ic.1 (ic.2, a0.2)) (fun c hcm => hc c (by simp [hcm])) ?_ a
        (by simpa [setLetters, List.foldl_cons, hg] using ha)
      intro i x hi hdash
      by_cases hii : i = ic.1
      · exfalso
        rw [hii] at hi
        rw [List.get?_eq_getElem?] at hi
        rw [List.getElem?_set_self'] at hi
        rw [hg] at hi
        have hx1 : x.1 = ic.2 := by
          simp only [Option.map_some, Option.some.injEq, Function.const] at hi
          rw [← hi]
        rw [hx1] at hdash
        exact hc ic.2 (by simp) hdash
      · rw [List.get?_eq_getElem?] at hi
        rw [List.getElem?_set_ne (by omega)] at hi
        rw [← List.get?_eq_getElem?] at hi
        rcases (by simpa using hl i x hi hdash : i = ic.1 ∨ ∃ y, (i, y) ∈ rest) with
          h0 | ⟨y, hy⟩
        · exact absurd h0 hii
        · exact List.mem_map.mpr ⟨(i, y), hy, rfl⟩

lemma wildcardIndices_eq_nil_iff (l : List Addition) :
    wildcardIndices l = [] ↔ ∀ a ∈ l, a.1 ≠ '-' := by
  unfold wildcardIndices
  rw [List.filterMap_eq_nil]
  constructor
  · intro h a ha hdash
    obtain ⟨i, hi⟩ := List.mem_iff_get?.mp ha
    have hmem : (i, a) ∈ l.enum := by
      rw [List.mk_mem_enum_iff_get?]
      exact hi
    have := h (i, a) hmem
    simp [hdash] at this
  · intro h ia hia
    obtain ⟨hlt, hval⟩ := List.mem_enum hia
    have ha : ia.2 ∈ l := by
      rw [hval]
      exact List.getElem_mem hlt
    simp [h ia.2 ha]

lemma charProduct_mem (n : Nat) (combo : List Char) :
    combo ∈ charProduct n ↔
      combo.length = n ∧ ∀ c ∈ combo, c ∈ uppercaseAlphabet := by
  induction n generalizing combo with
  | zero =>
    simp only [charProduct, List.mem_singleton]
    constructor
    · rintro rfl; simp
    · rintro ⟨hl, -⟩
      exact List.eq_nil_of_length_eq_zero hl
  | succ m ih =>
    simp only [charProduct, List.mem_flatMap, List.mem_map]
    constructor
    · rintro ⟨c, hc, t, ht, rfl⟩
      obtain ⟨hl, hall⟩ := (ih t).mp ht
      refine ⟨by simp [hl], ?_⟩
      intro x hx
      rcases List.mem_cons.mp hx with rfl | hxt
      · exact hc
      · exact hall x hxt
    · rintro ⟨hl, hall⟩
      cases combo with
      | nil => cases hl
      | cons c t =>
        refine ⟨c, hall c (by simp), t, (ih t).mpr ⟨by simpa using hl, ?_⟩, rfl⟩
        intro x hx
        exact hall x (by simp [hx])


/-- Two additions agreeing on position and on letter up to case. -/
def caseRel (a1 a2 : Addition) : Prop :=
  a1.2 = a2.2 ∧ a1.1.toLower = a2.1.toLower

/-- Two index-letter pairs agreeing on index and on letter up to case. -/
def pairRel (p q : Nat × Char) : Prop :=
  p.1 = q.1 ∧ p.2.toLower = q.2.toLower

lemma caseRel_map_snd {l1 l2 : List Addition}
    (h : List.Forall₂ caseRel l1 l2) : l1.map Prod.snd = l2.map Prod.snd := by
  induction h with
  | nil => rfl
  | cons hab _ ih => simp [hab.1, ih]

lemma forall₂_get? {l1 l2 : List Addition} (h : List.Forall₂ caseRel l1 l2) (i : Nat) :
    (l1.get? i = none ∧ l2.get? i = none) ∨
    ∃ x y, l1.get? i = some x ∧ l2.get? i = some y ∧ caseRel x y := by
  induction h generalizing i with
  | nil => left; simp
  | cons hab htail ih =>
    cases i with
    | zero => right; exact ⟨_, _, rfl, rfl, hab⟩
    | succ j =>
      rcases ih j with ⟨h1, h2⟩ | ⟨x, y, h1, h2, hr⟩
      · left
        constructor
        · show List.get? (_ :: _) (j + 1) = none
          simpa using h1
        · show List.get? (_ :: _) (j + 1) = none
          simpa using h2
      · right; exact ⟨x, y, by simpa using h1, by simpa using h2, hr⟩

lemma forall₂_set {l1 l2 : List Addition} (h : List.Forall₂ caseRel l1 l2)
    {x y : Addition} (hxy : caseRel x y) (i : Nat) :
    List.Forall₂ caseRel (l1.set i x) (l2.set i y) := by
  induction h generalizing i with
  | nil => simp
  | cons hab htail ih =>
    cases i with
    | zero => simpa using ⟨hxy, htail⟩
    | succ j => simpa using ⟨hab, ih j⟩

lemma setLetters_caseRel {ps1 ps2 : List (Nat × Char)}
    (hps : List.Forall₂ pairRel ps1 ps2) :
    ∀ {l1 l2 : List Addition}, List.Forall₂ caseRel l1 l2 →
      List.Forall₂ caseRel (setLetters l1 ps1) (setLetters l2 ps2) := by
  induction hps with
  | nil => intro l1 l2 h; exact h
  | cons hpq htail ih =>
    intro l1 l2 h
    rename_i p q ps1t ps2t
    obtain ⟨hpq1, hpq2⟩ := hpq
    show List.Forall₂ caseRel
      (setLetters (match l1.get? p.1 with
                   | some a => l1.set p.1 (p.2, a.2)
                   | none => l1) ps1t)
      (setLetters (match l2.get? q.1 with
                   | some a => l2.set q.1 (q.2, a.2)
                   | none => l2) ps2t)
    rcases forall₂_get? h p.1 with ⟨h1, h2⟩ | ⟨x, y, h1, h2, hr⟩
    · rw [h1, show l2.get? q.1 = none from hpq1 ▸ h2]
      exact ih h
    · rw [h1, show l2.get? q.1 = some y from hpq1 ▸ h2]
      rw [← hpq1]
      obtain ⟨hr1, hr2⟩ := hr
      exact ih (forall₂_set h ⟨by simpa using hr1, hpq2⟩ p.1)

lemma zip_map_toLower (widx : List Nat) (combo : List Char)
    (hc : ∀ c ∈ combo, c.toLower.toLower = c.toLower) :
    List.Forall₂ pairRel (widx.zip combo) (widx.zip (combo.map Char.toLower)) := by
  induction widx generalizing combo with
  | nil => simp
  | cons i rest ih =>
    cases combo with
    | nil => simp
    | cons c ct =>
      simp only [List.map_cons, List.zip_cons_cons, List.forall₂_cons]
      exact ⟨⟨rfl, (hc c (by simp)).symm⟩, ih ct (fun d hd => hc d (by simp [hd]))⟩

lemma upper_toLower_idem : ∀ c ∈ uppercaseAlphabet, c.toLower.toLower = c.toLower := by
  decide

lemma applyAdditions_case {b1 b2 : Board}
    (hb : ∀ r c, (b1 r c).map Char.toLower = (b2 r c).map Char.toLower)
    {l1 l2 : List Addition} (h : List.Forall₂ caseRel l1 l2) :
    ∀ r c, (applyAdditions b1 l1 r c).map Char.toLower =
      (applyAdditions b2 l2 r c).map Char.toLower := by
  induction h generalizing b1 b2 with
  | nil => exact hb
  | cons hab htail ih =>
    rename_i a1 a2 t1 t2
    obtain ⟨hpos, hlet⟩ := hab
    intro r c
    show (applyAdditions (updateCell b1 a1.2.1 a1.2.2 a1.1) t1 r c).map Char.toLower =
      (applyAdditions (updateCell b2 a2.2.1 a2.2.2 a2.1) t2 r c).map Char.toLower
    refine ih ?_ r c
    intro r0 c0
    unfold updateCell
    rw [hpos]
    by_cases hrc : r0 = a2.2.1 ∧ c0 = a2.2.2
    · rw [if_pos hrc, if_pos hrc]
      simp [hlet]
    · rw [if_neg hrc, if_neg hrc]
      exact hb r0 c0

lemma applyAdditions_occ {b : Board} {l1 l2 : List Addition}
    (h : List.Forall₂ caseRel l1 l2) :
    ∀ r c, (applyAdditions b l1 r c).isSome = (applyAdditions b l2 r c).isSome := by
  intro r c
  have := @applyAdditions_case b b (fun _ _ => rfl) l1 l2 h r c
  calc (applyAdditions b l1 r c).isSome
      = ((applyAdditions b l1 r c).map Char.toLower).isSome := by simp
    _ = ((applyAdditions b l2 r c).map Char.toLower).isSome := by rw [this]
    _ = (applyAdditions b l2 r c).isSome := by simp

lemma wordAt_toLower {tb1 tb2 : Board}
    (hb : ∀ r c, (tb1 r c).map Char.toLower = (tb2 r c).map Char.toLower)
    (pl : List Pos) :
    (wordAt tb1 pl).map Char.toLower = (wordAt tb2 pl).map Char.toLower := by
  unfold wordAt
  rw [List.map_map, List.map_map]
  apply List.map_congr_left
  intro p hp
  have := hb p.1 p.2
  rcases h1 : tb1 p.1 p.2 with - | c1 <;> rcases h2 : tb2 p.1 p.2 with - | c2 <;>
    rw [h1, h2] at this <;> simp_all [Function.comp]

lemma allWordsValid_case (rule : ScrabbleRule) (b : Board)
    {l1 l2 : List Addition} (h : List.Forall₂ caseRel l1 l2) :
    (allWordsValid rule b l1 = true ↔ allWordsValid rule b l2 = true) := by
  cases h with
  | nil => simp
  | cons hab htail =>
    rename_i a1 a2 t1 t2
    unfold allWordsValid allAffectedWords
    have hocc : (fun r c => (applyAdditions b (a1 :: t1) r c).isSome) =
        (fun r c => (applyAdditions b (a2 :: t2) r c).isSome) := by
      funext r c
      exact applyAdditions_occ (List.Forall₂.cons hab htail) r c
    have hpos : (a1 :: t1).map Prod.snd = (a2 :: t2).map Prod.snd :=
      caseRel_map_snd (List.Forall₂.cons hab htail)
    rw [List.all_eq_true, List.all_eq_true]
    constructor
    · intro hall w hw
      rw [List.mem_dedup] at hw
      obtain ⟨pl, hpl, rfl⟩ := List.mem_map.mp hw
      rw [← hocc, ← hpos] at hpl
      have h1 := hall ((wordAt (applyAdditions b (a1 :: t1)) pl)) (by
        rw [List.mem_dedup]
        exact List.mem_map.mpr ⟨pl, hpl, rfl⟩)
      rw [← wordAt_toLower (applyAdditions_case (fun _ _ => rfl)
        (List.Forall₂.cons hab htail)) pl]
      exact h1
    · intro hall w hw
      rw [List.mem_dedup] at hw
      obtain ⟨pl, hpl, rfl⟩ := List.mem_map.mp hw
      rw [hocc, hpos] at hpl
      have h1 := hall ((wordAt (applyAdditions b (a2 :: t2)) pl)) (by
        rw [List.mem_dedup]
        exact List.mem_map.mpr ⟨pl, hpl, rfl⟩)
      rw [wordAt_toLower (applyAdditions_case (fun _ _ => rfl)
        (List.Forall₂.cons hab htail)) pl]
      exact h1


lemma upper_toLower_ne_dash : ∀ c ∈ uppercaseAlphabet, c.toLower ≠ '-' := by
  decide

lemma dash_index_mem_wildcardIndices (adds : List Addition) (i : Nat) (a : Addition)
    (hi : adds.get? i = some a) (hdash : a.1 = '-') : i ∈ wildcardIndices adds := by
  unfold wildcardIndices
  apply List.mem_filterMap.mpr
  refine ⟨(i, a), ?_, by simp [hdash]⟩
  rw [List.mk_mem_enum_iff_get?]
  exact hi

lemma find?_occupied_eq_none (b : Board) (l : List Addition)
    (h : ∀ a ∈ l, b a.2.1 a.2.2 = none) :
    l.find? (fun a => (b a.2.1 a.2.2).isSome) = none := by
  apply List.find?_eq_none.mpr
  intro a ha
  simp [h a ha]

/-- C9. `Game._check_word_valid` on a wildcard-bearing placement:
(i) `valid_combinations` holds exactly the letter tuples over the full
alphabet (Cartesian product across the wildcards) under which all affected
words are dictionary-valid; (ii) when none works it raises the error naming
the unresolved wildcard positions; (iii) when some work, the chosen tuple is
written back in lower case; and (iv) round-trip: any valid tuple, applied in
lower case, passes `_check_word_valid` again. -/
theorem wildcard_resolution_spec (rule : ScrabbleRule)
    (pick : List (List Char) → List Char) (b : Board) (adds : List Addition)
    (hov : ∀ a ∈ adds, b a.2.1 a.2.2 = none)
    (hw : wildcardIndices adds ≠ []) :
    (∀ combo, combo ∈ validCombos rule b adds ↔
       (combo.length = (wildcardIndices adds).length ∧
        (∀ c ∈ combo, c ∈ uppercaseAlphabet) ∧
        allWordsValid rule b (applyCombo adds (wildcardIndices adds) combo) = true)) ∧
    (validCombos rule b adds = [] →
       checkWordValid rule pick b adds =
         .error (mkNoComboMsg (wildcardPositions adds))) ∧
    (validCombos rule b adds ≠ [] →
       checkWordValid rule pick b adds =
         .ok (applyCombo adds (wildcardIndices adds)
               ((pick (validCombos rule b adds)).map Char.toLower))) ∧
    (∀ combo ∈ validCombos rule b adds,
       checkWordValid rule pick b
           (applyCombo adds (wildcardIndices adds) (combo.map Char.toLower)) =
         .ok (applyCombo adds (wildcardIndices adds) (combo.map Char.toLower))) := by
  have hmem : ∀ combo, combo ∈ validCombos rule b adds ↔
      (combo.length = (wildcardIndices adds).length ∧
       (∀ c ∈ combo, c ∈ uppercaseAlphabet) ∧
       allWordsValid rule b (applyCombo adds (wildcardIndices adds) combo) = true) := by
    intro combo
    unfold validCombos
    rw [List.mem_filter, charProduct_mem]
    tauto
  refine ⟨hmem, ?_, ?_, ?_⟩
  · intro hnone
    simp only [checkWordValid, find?_occupied_eq_none b adds hov, if_neg hw, hnone,
      if_pos]
  · intro hne
    simp only [checkWordValid, find?_occupied_eq_none b adds hov, if_neg hw,
      if_neg hne]
  · intro combo hcombo
    obtain ⟨hlen, halpha, hvalid⟩ := (hmem combo).mp hcombo
    have hpos : (applyCombo adds (wildcardIndices adds) (combo.map Char.toLower)).map
        Prod.snd = adds.map Prod.snd := setLetters_map_snd _ _
    have hov2 : ∀ a ∈ applyCombo adds (wildcardIndices adds) (combo.map Char.toLower),
        b a.2.1 a.2.2 = none := by
      intro a ha
      have : a.2 ∈ (applyCombo adds (wildcardIndices adds)
          (combo.map Char.toLower)).map Prod.snd := List.mem_map.mpr ⟨a, ha, rfl⟩
      rw [hpos] at this
      obtain ⟨a0, ha0, he⟩ := List.mem_map.mp this
      rw [← he]
      exact hov a0 ha0
    have hnodash : wildcardIndices (applyCombo adds (wildcardIndices adds)
        (combo.map Char.toLower)) = [] := by
      rw [wildcardIndices_eq_nil_iff]
      apply setLetters_no_dash
      · intro c hc
        obtain ⟨p, hp, hpe⟩ := List.mem_map.mp hc
        obtain ⟨i, c2⟩ := p
        rw [← hpe]
        have hcp : c2 ∈ combo.map Char.toLower := (List.mem_zip hp).2
        obtain ⟨c0, hc0, he0⟩ := List.mem_map.mp hcp
        rw [← he0]
        exact upper_toLower_ne_dash c0 (halpha c0 hc0)
      · intro i a hi hdash
        rw [List.map_fst_zip _ _ (by rw [List.length_map]; omega)]
        exact dash_index_mem_wildcardIndices adds i a hi hdash
    have hrel : List.Forall₂ caseRel
        (applyCombo adds (wildcardIndices adds) combo)
        (applyCombo adds (wildcardIndices adds) (combo.map Char.toLower)) := by
      apply setLetters_caseRel
      · exact zip_map_toLower _ combo (fun c hc => upper_toLower_idem c (halpha c hc))
      · exact List.forall₂_same.mpr fun x _ => ⟨rfl, rfl⟩
    have hvalidL : allWordsValid rule b (applyCombo adds (wildcardIndices adds)
        (combo.map Char.toLower)) = true :=
      (allWordsValid_case rule b hrel).mp hvalid
    have hfil : ((allAffectedWords b (applyCombo adds (wildcardIndices adds)
        (combo.map Char.toLower))).filter fun w =>
          ¬ rule.dict.contains (w.map Char.toLower)) = [] := by
      apply List.filter_eq_nil.mpr
      intro w hwmem
      rw [allWordsValid, List.all_eq_true] at hvalidL
      have h2 := hvalidL w hwmem
      simpa using h2
    simp only [checkWordValid,
      find?_occupied_eq_none b _ hov2, hnodash, if_pos, hfil, if_pos rfl]


/-- Witness for C9: resolving the wildcard in `-B` against a dictionary
containing only "ab" rewrites it to the lower-case resolved blank `a`. -/
theorem wildcard_resolution_spec_witness :
    checkWordValid testRuleAB pickHead emptyBoard [('-', (7, 7)), ('B', (7, 8))] =
      .ok [('a', (7, 7)), ('B', (7, 8))] := by
  have h := wildcard_resolution_spec testRuleAB pickHead emptyBoard
    [('-', (7, 7)), ('B', (7, 8))] (by decide) (by decide)
  have hv : validCombos testRuleAB emptyBoard [('-', (7, 7)), ('B', (7, 8))] = [['A']] := by
    decide
  have h3 := h.2.2.1 (by rw [hv]; exact (by decide))
  rw [hv] at h3
  exact h3.trans (congrArg Except.ok (by decide))


lemma char_eq_iff_toNat (c d : Char) : c = d ↔ c.toNat = d.toNat :=
  ⟨fun h => congrArg Char.toNat h, fun h => Char.ext (UInt32.ext h)⟩

lemma mem_upper_of_toNat (c : Char) (h1 : 65 ≤ c.toNat) (h2 : c.toNat ≤ 90) :
    c ∈ uppercaseAlphabet := by
  have he : ∀ n, 65 ≤ n → n ≤ 90 → ∃ d ∈ uppercaseAlphabet, d.toNat = n := by decide
  by_contra hmem
  obtain ⟨d, hd, hdn⟩ := he c.toNat h1 h2
  exact hmem (((char_eq_iff_toNat c d).mpr hdn.symm) ▸ hd)

lemma toUpper_alpha_mem (c : Char) (h : (c.toUpper).isAlpha = true) :
    c.toUpper ∈ uppercaseAlphabet := by
  unfold Char.toUpper at *
  by_cases hc : c.toNat ≥ 97 ∧ c.toNat ≤ 122
  · rw [if_pos hc] at *
    obtain ⟨h1, h2⟩ := hc
    interval_cases hn : c.toNat
    all_goals decide
  · rw [if_neg hc] at *
    simp only [Char.isAlpha, Char.isUpper, Char.isLower, Bool.or_eq_true,
      Bool.and_eq_true, decide_eq_true_eq] at h
    rcases h with ⟨h1, h2⟩ | ⟨h1, h2⟩
    · exact mem_upper_of_toNat c h1 h2
    · exfalso
      have hn1 : 97 ≤ c.toNat := h1
      have hn2 : c.toNat ≤ 122 := h2
      exact hc ⟨hn1, hn2⟩

lemma toUpper_alpha (c : Char) (h : c.isAlpha = true) : (c.toUpper).isAlpha = true := by
  unfold Char.toUpper
  by_cases hc : c.toNat ≥ 97 ∧ c.toNat ≤ 122
  · rw [if_pos hc]
    obtain ⟨h1, h2⟩ := hc
    interval_cases hn : c.toNat
    all_goals decide
  · rw [if_neg hc]
    exact h

/-- Message of the insufficient-rack `ValueError`, reporting the shortfall
count and the available-blank count. -/
def mkInsufficientMsg (missing blanks : Nat) : String :=
  s!"Pattern requires more letters than available in deck (including blanks). Missing {missing} letter(s), but only {blanks} blank(s) available."

/-- The `missing` count of `__verify_pattern`: the total fixed-letter
shortfall of the (upper-cased) pattern against the deck.  The sum ranges over
the fixed alphabet; letters absent from the pattern contribute 0. -/
def missingCount (p d : List Char) : Nat :=
  (uppercaseAlphabet.map fun c => p.count c - d.count c).sum

/-- Embedding of `SimplePatternGenerator.__verify_pattern`. -/
def spgVerify (pattern deck : List Char) : Except String Unit :=
  if pattern = [] then .error "Pattern cannot be empty"
  else
    let p := pattern.map Char.toUpper
    let d := deck.map Char.toUpper
    if ¬ (p.all fun c => c.isAlpha ∨ c = '_') then
      .error "Pattern can only contain letters and underscores"
    else if ¬ (d.all fun c => c.isAlpha ∨ c = '-') then
      .error "Deck can only contain letters and blanks"
    else if d.count '-' < missingCount p d then
      .error (mkInsufficientMsg (missingCount p d) (d.count '-'))
    else .ok ()

/-- Embedding of `__calculate_implicit_deck`: remove each fixed pattern
letter from the deck, consuming a blank when the letter is exhausted. -/
def calcImplicitDeck (p d : List Char) : List Char :=
  p.foldl
    (fun dl c =>
      if c.isAlpha then
        if c ∈ dl then dl.erase c
        else if '-' ∈ dl then dl.erase '-'
        else dl
      else dl)
    d

/-- The blank-budget loop of `__can_make_word`, one distinct needed letter at
a time. -/
def canSupplyAux (idc needed : List Char) : List Char → Nat → Bool
  | [], _ => true
  | c :: rest, blanks =>
      if idc.count c < needed.count c then
        if idc.count c + blanks < needed.count c then false
        else canSupplyAux idc needed rest (blanks - (needed.count c - idc.count c))
      else canSupplyAux idc needed rest blanks

/-- Embedding of `__can_make_word`. -/
def canMakeWord (p w idc : List Char) : Bool :=
  ((p.zip w).all fun pc => ¬ pc.1.isAlpha ∨ pc.2 = pc.1) &&
  (let needed := (p.zip w).filterMap fun pc => if pc.1 = '_' then some pc.2 else none
   canSupplyAux idc needed needed.dedup (idc.count '-'))

/-- Embedding of `SimplePatternGenerator.generate`. -/
def spgGenerate (pattern deck : List Char) (wordList : List (List Char)) :
    Except String (List (List Char)) :=
  match spgVerify pattern deck with
  | .error e => .error e
  | .ok _ =>
    let p := pattern.map Char.toUpper
    let d := deck.map Char.toUpper
    let idc := calcImplicitDeck p d
    let candidates := (wordList.filter fun w => w.length = pattern.length).map
      fun w => w.map Char.toUpper
    .ok (candidates.filter fun w => canMakeWord p w idc)


lemma alphabet_nodup : uppercaseAlphabet.Nodup := by decide

lemma alphabet_alpha : ∀ c ∈ uppercaseAlphabet, c.isAlpha = true := by decide

lemma dash_not_alpha : ('-').isAlpha = false := by decide

lemma underscore_not_alpha : ('_').isAlpha = false := by decide

lemma sum_map_succ_at (l : List Char) (a : Char) (f g : Char → Nat)
    (hmem : a ∈ l) (hnd : l.Nodup)
    (hoff : ∀ x ∈ l, x ≠ a → f x = g x) (hat : f a = g a + 1) :
    (l.map f).sum = (l.map g).sum + 1 := by
  induction l with
  | nil => cases hmem
  | cons x rest ih =>
    rcases List.mem_cons.mp hmem with h0 | hmr
    · subst h0
      have hrest : ∀ y ∈ rest, f y = g y := by
        intro y hy
        have hne : y ≠ a := by
          intro hh
          rw [hh] at hy
          exact (List.nodup_cons.mp hnd).1 hy
        exact hoff y (by simp [hy]) hne
      have hmg : (rest.map f) = rest.map g := List.map_congr_left hrest
      simp only [List.map_cons, List.sum_cons, hmg, hat]
      omega
    · have hxa : x ≠ a := by
        intro hh
        rw [hh] at hnd
        exact (List.nodup_cons.mp hnd).1 hmr
      have hfx : f x = g x := hoff x (by simp) hxa
      have := ih hmr (List.nodup_cons.mp hnd).2 (fun y hy => hoff y (by simp [hy]))
      simp only [List.map_cons, List.sum_cons, hfx, this]
      omega

lemma missingCount_cons_notalpha (a : Char) (p d : List Char)
    (ha : a.isAlpha = false) :
    missingCount (a :: p) d = missingCount p d := by
  unfold missingCount
  congr 1
  apply List.map_congr_left
  intro c hc
  have hca : c ≠ a := by
    intro hh
    rw [← hh] at ha
    rw [alphabet_alpha c hc] at ha
    cases ha
  rw [List.count_cons_of_ne hca]

lemma missingCount_nil (d : List Char) : missingCount [] d = 0 := by
  unfold missingCount
  have : (uppercaseAlphabet.map fun c => List.count c [] - d.count c) =
      uppercaseAlphabet.map fun _ => 0 := by
    apply List.map_congr_left
    intro c hc
    simp
  rw [this]
  simp

lemma calcImplicitDeck_cons (a : Char) (pt d : List Char) :
    calcImplicitDeck (a :: pt) d =
      calcImplicitDeck pt
        (if a.isAlpha then
           (if a ∈ d then d.erase a else if '-' ∈ d then d.erase '-' else d)
         else d) := rfl

lemma missingCount_congr (p d1 d2 : List Char)
    (h : ∀ c ∈ uppercaseAlphabet, d1.count c = d2.count c) :
    missingCount p d1 = missingCount p d2 := by
  unfold missingCount
  congr 1
  apply List.map_congr_left
  intro c hc
  rw [h c hc]

set_option maxHeartbeats 1600000 in
lemma calcImplicitDeck_count (p : List Char) :
    ∀ d : List Char,
    (∀ c ∈ p, c.isAlpha = true → c ∈ uppercaseAlphabet) →
    missingCount p d ≤ d.count '-' →
    (∀ L ∈ uppercaseAlphabet, (calcImplicitDeck p d).count L = d.count L - p.count L) ∧
    (calcImplicitDeck p d).count '-' = d.count '-' - missingCount p d := by
  induction p with
  | nil =>
    intro d hp hmiss
    constructor
    · intro L hL
      simp [calcImplicitDeck]
    · rw [missingCount_nil]
      simp [calcImplicitDeck]
  | cons a pt ih =>
    intro d hp hmiss
    rcases ha : a.isAlpha with - | -
    · -- not a letter: the fold skips it
      have hstep : calcImplicitDeck (a :: pt) d = calcImplicitDeck pt d := by
        rw [calcImplicitDeck_cons]
        simp only [ha, Bool.false_eq_true, if_false]
      have hmc : missingCount (a :: pt) d = missingCount pt d :=
        missingCount_cons_notalpha a pt d ha
      rw [hstep, hmc]
      rw [hmc] at hmiss
      obtain ⟨hc, hb⟩ := ih d (fun c hc2 => hp c (by simp [hc2])) hmiss
      refine ⟨?_, hb⟩
      intro L hL
      rw [hc L hL]
      have hLa : L ≠ a := by
        intro hh
        rw [← hh] at ha
        rw [alphabet_alpha L hL] at ha
        cases ha
      rw [List.count_cons_of_ne hLa]
    · -- a letter of the alphabet
      have hmem : a ∈ uppercaseAlphabet := hp a (by simp) ha
      have hadash : a ≠ '-' := by
        intro hh
        rw [hh] at ha
        rw [dash_not_alpha] at ha
        cases ha
      by_cases had : a ∈ d
      · have hstep : calcImplicitDeck (a :: pt) d = calcImplicitDeck pt (d.erase a) := by
          rw [calcImplicitDeck_cons, if_pos ha, if_pos had]
        have hcnt : 1 ≤ d.count a := List.count_pos_iff_mem.mpr had
        have hmc : missingCount pt (d.erase a) = missingCount (a :: pt) d := by
          unfold missingCount
          congr 1
          apply List.map_congr_left
          intro c hc
          by_cases hca : c = a
          · subst hca
            rw [List.count_erase_self, List.count_cons_self]
            omega
          · rw [List.count_erase_of_ne hca, List.count_cons_of_ne hca]
        have hbl : (d.erase a).count '-' = d.count '-' :=
          List.count_erase_of_ne (by exact fun hh => hadash hh.symm) d
        rw [hstep]
        obtain ⟨hc, hb⟩ := ih (d.erase a) (fun c hc2 => hp c (by simp [hc2]))
          (by rw [hmc, hbl]; exact hmiss)
        constructor
        · intro L hL
          rw [hc L hL]
          by_cases hLa : L = a
          · subst hLa
            rw [List.count_erase_self, List.count_cons_self]
            omega
          · rw [List.count_erase_of_ne hLa,
              List.count_cons_of_ne hLa]
        · rw [hb, hbl, hmc]
      · have hda : d.count a = 0 := by
          rw [List.count_eq_zero]
          exact had
        have hterm : List.count a (a :: pt) - d.count a = pt.count a + 1 - 0 := by
          rw [List.count_cons_self, hda]
        have hsum : missingCount (a :: pt) d = missingCount pt d + 1 := by
          unfold missingCount
          apply sum_map_succ_at uppercaseAlphabet a _ _ hmem alphabet_nodup
          · intro x hx hxa
            rw [List.count_cons_of_ne hxa]
          · rw [List.count_cons_self, hda]
            omega
        by_cases hdd : '-' ∈ d
        · have hstep : calcImplicitDeck (a :: pt) d =
              calcImplicitDeck pt (d.erase '-') := by
            rw [calcImplicitDeck_cons, if_pos ha, if_neg had, if_pos hdd]
          have hbl : (d.erase '-').count '-' = d.count '-' - 1 := by
            rw [List.count_erase_self]
          have hccnt : ∀ c ∈ uppercaseAlphabet, (d.erase '-').count c = d.count c := by
            intro c hc
            have hcd : c ≠ '-' := by
              intro hh
              rw [hh] at hc
              have h2 := alphabet_alpha '-' hc
              rw [dash_not_alpha] at h2
              cases h2
            exact List.count_erase_of_ne hcd d
          have hmc : missingCount pt (d.erase '-') = missingCount pt d :=
            missingCount_congr pt _ _ hccnt
          rw [hstep]
          have hdcnt : 1 ≤ d.count '-' := List.count_pos_iff_mem.mpr hdd
          obtain ⟨hc, hb⟩ := ih (d.erase '-') (fun c hc2 => hp c (by simp [hc2]))
            (by rw [hmc, hbl]; omega)
          constructor
          · intro L hL
            rw [hc L hL, hccnt L hL]
            by_cases hLa : L = a
            · subst hLa
              rw [List.count_cons_self]
              omega
            · rw [List.count_cons_of_ne hLa]
          · rw [hb, hbl, hmc, hsum]
            omega
        · exfalso
          have hd0 : d.count '-' = 0 := by
            rw [List.count_eq_zero]
            exact hdd
          rw [hsum, hd0] at hmiss
          omega


lemma canSupplyAux_iff (idc needed : List Char) (S : List Char) :
    ∀ blanks : Nat,
      (canSupplyAux idc needed S blanks = true ↔
        (S.map fun c => needed.count c - idc.count c).sum ≤ blanks) := by
  induction S with
  | nil =>
    intro blanks
    simp [canSupplyAux]
  | cons c St ih =>
    intro blanks
    unfold canSupplyAux
    by_cases h1 : idc.count c < needed.count c
    · rw [if_pos h1]
      by_cases h2 : idc.count c + blanks < needed.count c
      · rw [if_pos h2]
        refine iff_of_false (by simp) ?_
        simp only [List.map_cons, List.sum_cons]
        omega
      · rw [if_neg h2, ih]
        simp only [List.map_cons, List.sum_cons]
        omega
    · rw [if_neg h1, ih]
      simp only [List.map_cons, List.sum_cons]
      omega

lemma sum_over_alphabet_eq (S : List Char) (f : Char → Nat)
    (hS : S.Nodup) (hsub : ∀ c ∈ S, c ∈ uppercaseAlphabet)
    (hz : ∀ c ∈ uppercaseAlphabet, c ∉ S → f c = 0) :
    (uppercaseAlphabet.map f).sum = (S.map f).sum := by
  rw [← List.sum_toFinset f alphabet_nodup, ← List.sum_toFinset f hS]
  apply (Finset.sum_subset ?_ ?_).symm
  · intro x hx
    rw [List.mem_toFinset] at *
    exact hsub x hx
  · intro x hx hnx
    rw [List.mem_toFinset] at *
    exact hz x hx hnx

lemma spgVerify_ok_iff (pattern deck : List Char) :
    spgVerify pattern deck = .ok () ↔
      (pattern ≠ [] ∧
       (∀ c ∈ pattern.map Char.toUpper, c.isAlpha = true ∨ c = '_') ∧
       (∀ c ∈ deck.map Char.toUpper, c.isAlpha = true ∨ c = '-') ∧
       missingCount (pattern.map Char.toUpper) (deck.map Char.toUpper) ≤
         (deck.map Char.toUpper).count '-') := by
  unfold spgVerify
  by_cases h0 : pattern = []
  · rw [if_pos h0]
    exact iff_of_false (by intro h; cases h) (by rintro ⟨hne, -⟩; exact hne h0)
  · rw [if_neg h0]
    by_cases h1 : ((pattern.map Char.toUpper).all fun c => c.isAlpha ∨ c = '_') = true
    · rw [if_neg (by rw [h1]; simp)]
      by_cases h2 : ((deck.map Char.toUpper).all fun c => c.isAlpha ∨ c = '-') = true
      · rw [if_neg (by rw [h2]; simp)]
        have hp : ∀ c ∈ pattern.map Char.toUpper, c.isAlpha = true ∨ c = '_' := by
          intro c hc
          have := List.all_eq_true.mp h1 c hc
          simpa using this
        have hd : ∀ c ∈ deck.map Char.toUpper, c.isAlpha = true ∨ c = '-' := by
          intro c hc
          have := List.all_eq_true.mp h2 c hc
          simpa using this
        by_cases h3 : (deck.map Char.toUpper).count '-' <
            missingCount (pattern.map Char.toUpper) (deck.map Char.toUpper)
        · rw [if_pos h3]
          exact iff_of_false (by intro h; cases h)
            (by rintro ⟨-, -, -, hm⟩; omega)
        · rw [if_neg h3]
          exact iff_of_true rfl ⟨h0, hp, hd, by omega⟩
      · rw [if_pos (by simpa using h2)]
        refine iff_of_false (by intro h; cases h) ?_
        rintro ⟨-, -, hd, -⟩
        apply h2
        rw [List.all_eq_true]
        intro c hc
        have := hd c hc
        simpa using this
    · rw [if_pos (by simpa using h1)]
      refine iff_of_false (by intro h; cases h) ?_
      rintro ⟨-, hp, -, -⟩
      apply h1
      rw [List.all_eq_true]
      intro c hc
      have := hp c hc
      simpa using this


/-- Claim C5's wildcard-supply condition, phrased on the rack itself: the
word's wildcard-position letters can be simultaneously supplied by the rack
minus the letters consumed by the pattern's fixed letters, with blanks
covering any shortfall (all on upper-cased strings). -/
def claimSupply (p w d : List Char) : Prop :=
  (uppercaseAlphabet.map fun c =>
      ((p.zip w).filterMap fun pc =>
        if pc.1 = '_' then some pc.2 else none).count c -
        (d.count c - p.count c)).sum
    ≤ d.count '-' - missingCount p d

lemma sum_shortfall_congr (needed : List Char) (f g : Char → Nat)
    (h : ∀ c ∈ uppercaseAlphabet, f c = g c) :
    (uppercaseAlphabet.map fun c => needed.count c - f c).sum =
    (uppercaseAlphabet.map fun c => needed.count c - g c).sum := by
  congr 1
  apply List.map_congr_left
  intro c hc
  rw [h c hc]

set_option maxHeartbeats 1000000 in
lemma canMakeWord_iff (p d w : List Char)
    (hpA : ∀ c ∈ p, c.isAlpha = true → c ∈ uppercaseAlphabet)
    (hm : missingCount p d ≤ d.count '-')
    (hw : ∀ c ∈ w, c ∈ uppercaseAlphabet) :
    canMakeWord p w (calcImplicitDeck p d) = true ↔
      ((∀ pc ∈ p.zip w, pc.1.isAlpha = true → pc.2 = pc.1) ∧ claimSupply p w d) := by
  obtain ⟨hidcL, hidcB⟩ := calcImplicitDeck_count p d hpA hm
  unfold canMakeWord
  rw [Bool.and_eq_true]
  have hfix : ((p.zip w).all fun pc => ¬ pc.1.isAlpha ∨ pc.2 = pc.1) = true ↔
      (∀ pc ∈ p.zip w, pc.1.isAlpha = true → pc.2 = pc.1) := by
    rw [List.all_eq_true]
    constructor
    · intro h pc hpc ha
      have h2 := h pc hpc
      simp only [decide_eq_true_eq, Bool.not_eq_true] at h2
      rcases h2 with h2 | h2
      · rw [ha] at h2; cases h2
      · exact h2
    · intro h pc hpc
      have h2 := h pc hpc
      simp only [decide_eq_true_eq, Bool.not_eq_true]
      by_cases ha : pc.1.isAlpha = true
      · exact Or.inr (h2 ha)
      · exact Or.inl (by simpa using ha)
  rw [hfix]
  have hneed_sub : ∀ c ∈ ((p.zip w).filterMap fun pc =>
      if pc.1 = '_' then some pc.2 else none), c ∈ uppercaseAlphabet := by
    intro c hc
    obtain ⟨pc, hpc, hcc⟩ := List.mem_filterMap.mp hc
    have hc2 : pc.2 = c := by
      by_cases hu : pc.1 = '_'
      · rw [if_pos hu] at hcc; cases hcc; rfl
      · rw [if_neg hu] at hcc; cases hcc
    rw [← hc2]
    obtain ⟨i, c2⟩ := pc
    exact hw c2 (List.mem_zip hpc).2
  have hsupply : (canSupplyAux (calcImplicitDeck p d)
      ((p.zip w).filterMap fun pc => if pc.1 = '_' then some pc.2 else none)
      (((p.zip w).filterMap fun pc => if pc.1 = '_' then some pc.2 else none).dedup)
      ((calcImplicitDeck p d).count '-')) = true ↔ claimSupply p w d := by
    rw [canSupplyAux_iff]
    have hsum : (uppercaseAlphabet.map fun c =>
        ((p.zip w).filterMap fun pc => if pc.1 = '_' then some pc.2 else none).count c -
          (calcImplicitDeck p d).count c).sum =
        ((((p.zip w).filterMap fun pc =>
            if pc.1 = '_' then some pc.2 else none).dedup).map fun c =>
          ((p.zip w).filterMap fun pc => if pc.1 = '_' then some pc.2 else none).count c -
            (calcImplicitDeck p d).count c).sum := by
      apply sum_over_alphabet_eq
      · exact List.nodup_dedup _
      · intro c hc
        exact hneed_sub c (List.mem_dedup.mp hc)
      · intro c hc hnc
        have h0 : ((p.zip w).filterMap fun pc =>
            if pc.1 = '_' then some pc.2 else none).count c = 0 := by
          rw [List.count_eq_zero]
          intro hmm
          exact hnc (List.mem_dedup.mpr hmm)
        rw [h0]
        omega
    rw [← hsum, hidcB,
      sum_shortfall_congr ((p.zip w).filterMap fun pc =>
          if pc.1 = '_' then some pc.2 else none)
        (fun c => (calcImplicitDeck p d).count c)
        (fun c => d.count c - p.count c) hidcL]
    unfold claimSupply
    exact Iff.rfl
  rw [hsupply]


/-- C5. `SimplePatternGenerator.generate` on validated input returns exactly
the lexicon words (case-insensitively, i.e. upper-cased) of the pattern's
length whose fixed-position characters equal the pattern's letters and whose
wildcard-position characters the remaining rack can supply, blanks covering
any shortfall; and when the pattern's fixed-letter demand exceeds the rack
even using blanks, it raises the error reporting the shortfall count and the
available-blank count. -/
theorem pattern_matcher_spec (pattern deck : List Char) (wordList : List (List Char))
    (hlex : ∀ v ∈ wordList, ∀ c ∈ v, c.isAlpha = true) :
    (spgVerify pattern deck = .ok () →
      ∃ res, spgGenerate pattern deck wordList = .ok res ∧
        (∀ w, w ∈ res ↔ ∃ v ∈ wordList,
          w = v.map Char.toUpper ∧
          v.length = pattern.length ∧
          (∀ pc ∈ (pattern.map Char.toUpper).zip w, pc.1.isAlpha = true → pc.2 = pc.1) ∧
          claimSupply (pattern.map Char.toUpper) w (deck.map Char.toUpper))) ∧
    (pattern ≠ [] →
     (∀ c ∈ pattern.map Char.toUpper, c.isAlpha = true ∨ c = '_') →
     (∀ c ∈ deck.map Char.toUpper, c.isAlpha = true ∨ c = '-') →
     (deck.map Char.toUpper).count '-' <
       missingCount (pattern.map Char.toUpper) (deck.map Char.toUpper) →
      spgGenerate pattern deck wordList =
        .error (mkInsufficientMsg
          (missingCount (pattern.map Char.toUpper) (deck.map Char.toUpper))
          ((deck.map Char.toUpper).count '-'))) := by
  constructor
  · intro hok
    obtain ⟨hne, hp, hd, hm⟩ := (spgVerify_ok_iff pattern deck).mp hok
    have hpA : ∀ c ∈ pattern.map Char.toUpper, c.isAlpha = true →
        c ∈ uppercaseAlphabet := by
      intro c hc hca
      obtain ⟨c0, hc0, rfl⟩ := List.mem_map.mp hc
      exact toUpper_alpha_mem c0 hca
    refine ⟨((wordList.filter fun w => w.length = pattern.length).map
        fun w => w.map Char.toUpper).filter
          (fun w => canMakeWord (pattern.map Char.toUpper) w
            (calcImplicitDeck (pattern.map Char.toUpper) (deck.map Char.toUpper))),
      by simp only [spgGenerate, hok], ?_⟩
    intro w
    rw [List.mem_filter]
    constructor
    · rintro ⟨hwmem, hcan⟩
      obtain ⟨v, hv, rfl⟩ := List.mem_map.mp hwmem
      obtain ⟨hvw, hvlen⟩ := List.mem_filter.mp hv
      have hlen : v.length = pattern.length := by simpa using hvlen
      have hwA : ∀ c ∈ v.map Char.toUpper, c ∈ uppercaseAlphabet := by
        intro c hc
        obtain ⟨c0, hc0, rfl⟩ := List.mem_map.mp hc
        exact toUpper_alpha_mem c0 (toUpper_alpha c0 (hlex v hvw c0 hc0))
      obtain ⟨hfix, hsup⟩ := (canMakeWord_iff (pattern.map Char.toUpper)
        (deck.map Char.toUpper) (v.map Char.toUpper) hpA hm hwA).mp hcan
      exact ⟨v, hvw, rfl, hlen, hfix, hsup⟩
    · rintro ⟨v, hvw, rfl, hlen, hfix, hsup⟩
      have hwA : ∀ c ∈ v.map Char.toUpper, c ∈ uppercaseAlphabet := by
        intro c hc
        obtain ⟨c0, hc0, rfl⟩ := List.mem_map.mp hc
        exact toUpper_alpha_mem c0 (toUpper_alpha c0 (hlex v hvw c0 hc0))
      refine ⟨List.mem_map.mpr ⟨v, List.mem_filter.mpr ⟨hvw, by simpa using hlen⟩, rfl⟩, ?_⟩
      exact (canMakeWord_iff (pattern.map Char.toUpper)
        (deck.map Char.toUpper) (v.map Char.toUpper) hpA hm hwA).mpr ⟨hfix, hsup⟩
  · intro h0 hp hd hmiss
    have hallp : ((pattern.map Char.toUpper).all fun c => c.isAlpha ∨ c = '_') = true := by
      rw [List.all_eq_true]
      intro c hc
      have := hp c hc
      simpa using this
    have halld : ((deck.map Char.toUpper).all fun c => c.isAlpha ∨ c = '-') = true := by
      rw [List.all_eq_true]
      intro c hc
      have := hd c hc
      simpa using this
    have hver : spgVerify pattern deck =
        .error (mkInsufficientMsg
          (missingCount (pattern.map Char.toUpper) (deck.map Char.toUpper))
          ((deck.map Char.toUpper).count '-')) := by
      unfold spgVerify
      rw [if_neg h0, if_neg (by rw [hallp]; simp), if_neg (by rw [halld]; simp),
        if_pos hmiss]
    simp only [spgGenerate, hver]

/-- Witness for C5: pattern `Q_` against the single-letter rack `A` (no
blanks) is rejected, reporting 1 missing letter and 0 blanks. -/
theorem pattern_matcher_spec_witness :
    spgGenerate ['Q', '_'] ['A'] [['a', 'b']] = .error (mkInsufficientMsg 1 0) := by
  have h := (pattern_matcher_spec ['Q', '_'] ['A'] [['a', 'b']] (by decide)).2
    (by decide) (by decide) (by decide) (by decide)
  have h1 : missingCount (['Q', '_'].map Char.toUpper) (['A'].map Char.toUpper) = 1 := by
    decide
  have h2 : ((['A'].map Char.toUpper).count '-') = 0 := by decide
  rw [h1, h2] at h
  exact h


/-- A token of a dynamic pattern: a single character or a bounded range. -/
inductive DToken where
  | chr (c : Char)
  | range (n m : Nat)
deriving DecidableEq

/-- Numeric value of a digit run (the regex groups are decimal numerals). -/
def digitsToNat (ds : List Char) : Nat :=
  ds.foldl (fun acc c => acc * 10 + (c.toNat - 48)) 0

/-- Parse the body of the regex `(digits,digits)` after the opening
parenthesis: two non-empty digit runs separated by a comma, then `)`. -/
def parseAfterParen (rest : List Char) : Option (Nat × Nat × List Char) :=
  if rest.takeWhile Char.isDigit = [] then none
  else
    match rest.dropWhile Char.isDigit with
    | c2 :: rest2 =>
        if c2 = ',' then
          if rest2.takeWhile Char.isDigit = [] then none
          else
            match rest2.dropWhile Char.isDigit with
            | c3 :: rest3 =>
                if c3 = ')' then
                  some (digitsToNat (rest.takeWhile Char.isDigit),
                        digitsToNat (rest2.takeWhile Char.isDigit), rest3)
                else none
            | [] => none
        else none
    | [] => none

/-- Parse the regex `\((\d+),(\d+)\)` at the head of the input, returning
the two numbers and the remainder. -/
def parseRange : List Char → Option (Nat × Nat × List Char)
  | c :: rest => if c = '(' then parseAfterParen rest else none
  | [] => none

lemma parseAfterParen_length (rest : List Char) (n m : Nat) (rest3 : List Char)
    (h : parseAfterParen rest = some (n, m, rest3)) : rest3.length < rest.length := by
  unfold parseAfterParen at h
  split at h
  · cases h
  next h1 =>
    split at h
    next c2 rest2 hr1 =>
      split at h
      next hc2 =>
        split at h
        · cases h
        next h2 =>
          split at h
          next c3 rest3b hr2 =>
            split at h
            next hc3 =>
              simp only [Option.some.injEq, Prod.mk.injEq] at h
              obtain ⟨-, -, hrr⟩ := h
              subst hrr
              have e1 : rest.length =
                  (rest.takeWhile Char.isDigit).length + (c2 :: rest2).length := by
                rw [← hr1, ← List.length_append, List.takeWhile_append_dropWhile]
              have e2 : rest2.length =
                  (rest2.takeWhile Char.isDigit).length + (c3 :: rest3b).length := by
                rw [← hr2, ← List.length_append, List.takeWhile_append_dropWhile]
              have hp1 : 0 < (rest.takeWhile Char.isDigit).length :=
                List.length_pos.mpr h1
              have hp2 : 0 < (rest2.takeWhile Char.isDigit).length :=
                List.length_pos.mpr h2
              simp only [List.length_cons] at e1 e2
              omega
            next => cases h
          next => cases h
      next => cases h
    next => cases h

lemma parseRange_length (l : List Char) (n m : Nat) (rest : List Char)
    (h : parseRange l = some (n, m, rest)) : rest.length < l.length := by
  match l with
  | [] => cases h
  | c :: t =>
    have h2 : (if c = '(' then parseAfterParen t else none) = some (n, m, rest) := h
    by_cases hc : c = '('
    · rw [if_pos hc] at h2
      have := parseAfterParen_length t n m rest h2
      simp only [List.length_cons]
      omega
    · rw [if_neg hc] at h2; cases h2

/-- The tokenizer of `__list_all_patterns`, fuelled for structural
recursion (the fuel is the input length, which strictly bounds the number of
steps): try the range regex at the current position, else take one
character. -/
def dpgTokenizeF : Nat → List Char → List DToken
  | 0, _ => []
  | _ + 1, [] => []
  | fuel + 1, c :: rest =>
      match parseRange (c :: rest) with
      | some (n, m, rest2) => .range n m :: dpgTokenizeF fuel rest2
      | none => .chr c :: dpgTokenizeF fuel rest

/-- The tokenizer of `__list_all_patterns`. -/
def dpgTokenize (l : List Char) : List DToken :=
  dpgTokenizeF l.length l


/-- The single-pass scan of `DynamicPatternGenerator.__verify_pattern`,
collecting the pattern's fixed letters.  The source upper-cases the pattern
before scanning; since `toUpper` fixes every non-letter character and
preserves `isalpha`, the scan is embedded on the raw pattern, collecting the
letters upper-cased (`letter_counts[pattern[i].upper()]`). -/
def dpgScanF : Nat → List Char → Except String (List Char)
  | 0, _ => .ok []
  | _ + 1, [] => .ok []
  | fuel + 1, c :: rest =>
      if c = '(' then
        match parseRange (c :: rest) with
        | some (n, m, rest2) =>
            if n < m then dpgScanF fuel rest2
            else .error "Invalid range. Must have 0 <= n < m"
        | none => .error "Invalid range format. Expected (n,m) where n < m"
      else if c.isAlpha then (dpgScanF fuel rest).map (fun ls => c.toUpper :: ls)
      else if c = '_' then dpgScanF fuel rest
      else .error "Invalid character. Use only letters, underscore and (n,m)"

/-- The single-pass scan of `__verify_pattern` (fuelled with the input
length, which strictly bounds the number of steps). -/
def dpgScan (l : List Char) : Except String (List Char) :=
  dpgScanF l.length l

/-- Embedding of `DynamicPatternGenerator.__verify_pattern`. -/
def dpgVerify (pattern deck : List Char) : Except String Unit :=
  match dpgScan pattern with
  | .error e => .error e
  | .ok letters =>
      if ¬ ((deck.map Char.toUpper).all fun c => c.isAlpha ∨ c = '-') then
        .error "Deck can only contain letters and blanks"
      else if (deck.map Char.toUpper).count '-' <
          missingCount letters (deck.map Char.toUpper) then
        .error (mkInsufficientMsg (missingCount letters (deck.map Char.toUpper))
          ((deck.map Char.toUpper).count '-'))
      else .ok ()

/-- The `expand` recursion of `__list_all_patterns`: every choice of one run
length per range, ranges expanded to underscore runs. -/
def dpgExpand : List DToken → List (List Char)
  | [] => [[]]
  | DToken.range n m :: rest =>
      ((List.range (m + 1 - n)).map fun k => n + k).flatMap
        fun k => (dpgExpand rest).map fun tail => List.replicate k '_' ++ tail
  | DToken.chr c :: rest => (dpgExpand rest).map fun tail => c :: tail

/-- Claim C6's expansion relation: a fixed pattern obtained by replacing each
range `(n,m)` with a run of `k` wildcards for some independent choice
`n ≤ k ≤ m`, keeping the other characters. -/
inductive Expansion : List DToken → List Char → Prop where
  | nil : Expansion [] []
  | chr (c : Char) {ts : List DToken} {p : List Char} :
      Expansion ts p → Expansion (DToken.chr c :: ts) (c :: p)
  | rng (n m k : Nat) {ts : List DToken} {p : List Char} :
      n ≤ k → k ≤ m → Expansion ts p →
      Expansion (DToken.range n m :: ts) (List.replicate k '_' ++ p)

/-- Accumulate into a Python `set` modelled as an insertion-ordered
duplicate-free list. -/
def insertAllNew (acc : List (List Char)) (ws : List (List Char)) :
    List (List Char) :=
  ws.foldl (fun a w => if w ∈ a then a else a ++ [w]) acc

/-- The per-expansion loop of `DynamicPatternGenerator.generate`: run the
simple generator on each fixed pattern, accumulating the union; any raised
error propagates. -/
def dpgGenerateLoop (deck : List Char) (wl : List (List Char)) :
    List (List Char) → List (List Char) → Except String (List (List Char))
  | [], acc => .ok acc
  | pat :: rest, acc =>
      match spgGenerate pat deck wl with
      | .error e => .error e
      | .ok ws => dpgGenerateLoop deck wl rest (insertAllNew acc ws)

/-- Embedding of `DynamicPatternGenerator.generate`. -/
def dpgGenerate (pattern deck : List Char) (wordList : List (List Char)) :
    Except String (List (List Char)) :=
  match dpgVerify pattern deck with
  | .error e => .error e
  | .ok _ => dpgGenerateLoop deck wordList (dpgExpand (dpgTokenize pattern)) []


lemma expansion_nil_inv (pm : List Char) (h : Expansion [] pm) : pm = [] := by
  cases h
  rfl

lemma mem_dpgExpand_iff (toks : List DToken) (pm : List Char) :
    pm ∈ dpgExpand toks ↔ Expansion toks pm := by
  induction toks generalizing pm with
  | nil =>
    simp only [dpgExpand, List.mem_singleton]
    constructor
    · rintro rfl; exact Expansion.nil
    · intro h; exact expansion_nil_inv pm h
  | cons t rest ih =>
    cases t with
    | chr c =>
      simp only [dpgExpand, List.mem_map]
      constructor
      · rintro ⟨tail, htail, rfl⟩
        exact Expansion.chr c ((ih tail).mp htail)
      · intro h
        cases h with
        | chr _ htail => exact ⟨_, (ih _).mpr htail, rfl⟩
    | range n m =>
      simp only [dpgExpand, List.mem_flatMap, List.mem_map]
      constructor
      · rintro ⟨k, hk, tail, htail, rfl⟩
        obtain ⟨j, hj, rfl⟩ := hk
        rw [List.mem_range] at hj
        exact Expansion.rng n m (n + j) (by omega) (by omega) ((ih tail).mp htail)
      · intro h
        cases h with
        | rng n m k hnk hkm htail =>
          exact ⟨k, ⟨k - n, by rw [List.mem_range]; omega, by omega⟩, _,
            (ih _).mpr htail, rfl⟩

lemma insertAllNew_mem (ws : List (List Char)) :
    ∀ acc w, (w ∈ insertAllNew acc ws ↔ w ∈ acc ∨ w ∈ ws) := by
  induction ws with
  | nil => intro acc w; simp [insertAllNew]
  | cons v rest ih =>
    intro acc w
    show w ∈ insertAllNew (if v ∈ acc then acc else acc ++ [v]) rest ↔ _
    rw [ih]
    by_cases hv : v ∈ acc
    · rw [if_pos hv]
      constructor
      · rintro (h | h)
        · exact Or.inl h
        · exact Or.inr (by simp [h])
      · rintro (h | h)
        · exact Or.inl h
        · rcases List.mem_cons.mp h with rfl | h2
          · exact Or.inl hv
          · exact Or.inr h2
    · rw [if_neg hv]
      constructor
      · rintro (h | h)
        · rcases List.mem_append.mp h with h2 | h2
          · exact Or.inl h2
          · have hwv : w = v := List.mem_singleton.mp h2
            exact Or.inr (by simp [hwv])
        · exact Or.inr (by simp [h])
      · rintro (h | h)
        · exact Or.inl (List.mem_append.mpr (Or.inl h))
        · rcases List.mem_cons.mp h with rfl | h2
          · exact Or.inl (List.mem_append.mpr (Or.inr (by simp)))
          · exact Or.inr h2

lemma insertAllNew_nodup (ws : List (List Char)) :
    ∀ acc, acc.Nodup → (insertAllNew acc ws).Nodup := by
  induction ws with
  | nil => intro acc h; exact h
  | cons v rest ih =>
    intro acc h
    show ((insertAllNew (if v ∈ acc then acc else acc ++ [v]) rest)).Nodup
    by_cases hv : v ∈ acc
    · rw [if_pos hv]
      exact ih acc h
    · rw [if_neg hv]
      refine ih (acc ++ [v]) ?_
      rw [List.nodup_append]
      exact ⟨h, List.nodup_singleton v, by simpa using hv⟩

lemma dpgGenerateLoop_ok (deck : List Char) (wl : List (List Char)) :
    ∀ (pats : List (List Char)),
      (∀ pm ∈ pats, ∃ l, spgGenerate pm deck wl = .ok l) →
      ∀ acc, ∃ res, dpgGenerateLoop deck wl pats acc = .ok res ∧
        (∀ w, w ∈ res ↔ w ∈ acc ∨ ∃ pm ∈ pats, ∃ l,
            spgGenerate pm deck wl = .ok l ∧ w ∈ l) ∧
        (acc.Nodup → res.Nodup) := by
  intro pats
  induction pats with
  | nil =>
    intro _ acc
    exact ⟨acc, rfl, by simp [dpgGenerateLoop], fun h => h⟩
  | cons pat rest ih =>
    intro hall acc
    obtain ⟨l0, hl0⟩ := hall pat (by simp)
    obtain ⟨res, hres, hmem, hnd⟩ := ih (fun pm hpm => hall pm (by simp [hpm]))
      (insertAllNew acc l0)
    refine ⟨res, ?_, ?_, ?_⟩
    · show (match spgGenerate pat deck wl with
        | Except.error e => Except.error e
        | Except.ok ws => dpgGenerateLoop deck wl rest (insertAllNew acc ws)) =
          Except.ok res
      rw [hl0]
      exact hres
    · intro w
      rw [hmem w, insertAllNew_mem]
      constructor
      · rintro ((h | h) | h)
        · exact Or.inl h
        · exact Or.inr ⟨pat, by simp, l0, hl0, h⟩
        · obtain ⟨pm, hpm, l2, hl2, hw⟩ := h
          exact Or.inr ⟨pm, by simp [hpm], l2, hl2, hw⟩
      · rintro (h | h)
        · exact Or.inl (Or.inl h)
        · obtain ⟨pm, hpm, l2, hl2, hw⟩ := h
          rcases List.mem_cons.mp hpm with rfl | hpm2
          · rw [hl0] at hl2
            cases hl2
            exact Or.inl (Or.inr hw)
          · exact Or.inr ⟨pm, hpm2, l2, hl2, hw⟩
    · intro hacc
      exact hnd (insertAllNew_nodup l0 acc hacc)


/-- The upper-cased fixed letters carried by a token list. -/
def charsOfU (toks : List DToken) : List Char :=
  toks.filterMap fun t =>
    match t with
    | DToken.chr c => if c.isAlpha then some c.toUpper else none
    | DToken.range _ _ => none

lemma charsOfU_cons_chr_alpha (c : Char) (ts : List DToken) (ha : c.isAlpha = true) :
    charsOfU (DToken.chr c :: ts) = c.toUpper :: charsOfU ts := by
  simp [charsOfU, List.filterMap_cons, ha]

lemma charsOfU_cons_chr_not (c : Char) (ts : List DToken) (ha : c.isAlpha = false) :
    charsOfU (DToken.chr c :: ts) = charsOfU ts := by
  simp [charsOfU, List.filterMap_cons, ha]

lemma charsOfU_cons_range (n m : Nat) (ts : List DToken) :
    charsOfU (DToken.range n m :: ts) = charsOfU ts := by
  simp [charsOfU, List.filterMap_cons]

lemma parseRange_none_of_ne (c : Char) (rest : List Char) (hc : c ≠ '(') :
    parseRange (c :: rest) = none := by
  show (if c = '(' then parseAfterParen rest else none) = none
  rw [if_neg hc]

lemma dpgScanF_facts : ∀ (fuel : Nat) (l : List Char) (letters : List Char),
    l.length ≤ fuel → dpgScanF fuel l = .ok letters →
    (∀ t ∈ dpgTokenizeF fuel l, ∀ c, t = DToken.chr c → (c.isAlpha = true ∨ c = '_')) ∧
    charsOfU (dpgTokenizeF fuel l) = letters := by
  intro fuel
  induction fuel with
  | zero =>
    intro l letters hlen hscan
    have hl : l = [] := List.eq_nil_of_length_eq_zero (by omega)
    subst hl
    have hlet : ([] : List Char) = letters := Except.ok.inj hscan
    refine ⟨?_, ?_⟩
    · intro t ht
      cases ht
    · rw [← hlet]
      rfl
  | succ fuel ih =>
    intro l letters hlen hscan
    match l with
    | [] =>
      have hlet : ([] : List Char) = letters := Except.ok.inj hscan
      refine ⟨?_, ?_⟩
      · intro t ht
        cases ht
      · rw [← hlet]
        rfl
    | c :: rest =>
      rcases hp : parseRange (c :: rest) with - | ⟨n, m, rest2⟩
      · -- no range here: the tokenizer takes the single character
        have htok : dpgTokenizeF (fuel + 1) (c :: rest) =
            DToken.chr c :: dpgTokenizeF fuel rest := by
          show (match parseRange (c :: rest) with
            | some (n, m, rest2) => DToken.range n m :: dpgTokenizeF fuel rest2
            | none => DToken.chr c :: dpgTokenizeF fuel rest) = _
          rw [hp]
        have hlen2 : rest.length ≤ fuel := by
          simp only [List.length_cons] at hlen
          omega
        by_cases hc : c = '('
        · exfalso
          have hbody : (if c = '(' then
              (match parseRange (c :: rest) with
               | some (n, m, rest2) =>
                   if n < m then dpgScanF fuel rest2
                   else Except.error "Invalid range. Must have 0 <= n < m"
               | none =>
                   Except.error "Invalid range format. Expected (n,m) where n < m")
            else if c.isAlpha then
              (dpgScanF fuel rest).map (fun ls => c.toUpper :: ls)
            else if c = '_' then dpgScanF fuel rest
            else Except.error
              "Invalid character. Use only letters, underscore and (n,m)") =
              .ok letters := hscan
          rw [if_pos hc, hp] at hbody
          cases hbody
        · have hbody : (if c.isAlpha then
              (dpgScanF fuel rest).map (fun ls => c.toUpper :: ls)
            else if c = '_' then dpgScanF fuel rest
            else Except.error
              "Invalid character. Use only letters, underscore and (n,m)") =
              .ok letters := by
            have h0 : (if c = '(' then
                (match parseRange (c :: rest) with
                 | some (n, m, rest2) =>
                     if n < m then dpgScanF fuel rest2
                     else Except.error "Invalid range. Must have 0 <= n < m"
                 | none =>
                     Except.error "Invalid range format. Expected (n,m) where n < m")
              else if c.isAlpha then
                (dpgScanF fuel rest).map (fun ls => c.toUpper :: ls)
              else if c = '_' then dpgScanF fuel rest
              else Except.error
                "Invalid character. Use only letters, underscore and (n,m)") =
                .ok letters := hscan
            rw [if_neg hc] at h0
            exact h0
          by_cases ha : c.isAlpha = true
          · rw [if_pos ha] at hbody
            rcases hsr : dpgScanF fuel rest with e | ls
            · rw [hsr] at hbody; cases hbody
            · rw [hsr] at hbody
              have hlet : c.toUpper :: ls = letters := Except.ok.inj hbody
              obtain ⟨ht, hch⟩ := ih rest ls hlen2 hsr
              rw [htok]
              constructor
              · intro t htm c2 htc
                rcases List.mem_cons.mp htm with h0 | htm2
                · rw [h0] at htc
                  cases htc
                  exact Or.inl ha
                · exact ht t htm2 c2 htc
              · rw [charsOfU_cons_chr_alpha c _ ha, hch, hlet]
          · rw [if_neg ha] at hbody
            by_cases hu : c = '_'
            · rw [if_pos hu] at hbody
              obtain ⟨ht, hch⟩ := ih rest letters hlen2 hbody
              rw [htok]
              constructor
              · intro t htm c2 htc
                rcases List.mem_cons.mp htm with h0 | htm2
                · rw [h0] at htc
                  cases htc
                  exact Or.inr hu
                · exact ht t htm2 c2 htc
              · rw [charsOfU_cons_chr_not c _ (by simpa using ha), hch]
            · rw [if_neg hu] at hbody
              cases hbody
      · -- a range token
        have hc : c = '(' := by
          by_contra hcc
          rw [parseRange_none_of_ne c rest hcc] at hp
          cases hp
        have htok : dpgTokenizeF (fuel + 1) (c :: rest) =
            DToken.range n m :: dpgTokenizeF fuel rest2 := by
          show (match parseRange (c :: rest) with
            | some (n, m, rest2) => DToken.range n m :: dpgTokenizeF fuel rest2
            | none => DToken.chr c :: dpgTokenizeF fuel rest) = _
          rw [hp]
        have hbody : (match parseRange (c :: rest) with
            | some (n, m, rest2) =>
                if n < m then dpgScanF fuel rest2
                else Except.error "Invalid range. Must have 0 <= n < m"
            | none =>
                Except.error "Invalid range format. Expected (n,m) where n < m") =
            .ok letters := by
          have h0 : (if c = '(' then
              (match parseRange (c :: rest) with
               | some (n, m, rest2) =>
                   if n < m then dpgScanF fuel rest2
                   else Except.error "Invalid range. Must have 0 <= n < m"
               | none =>
                   Except.error "Invalid range format. Expected (n,m) where n < m")
            else if c.isAlpha then
              (dpgScanF fuel rest).map (fun ls => c.toUpper :: ls)
            else if c = '_' then dpgScanF fuel rest
            else Except.error
              "Invalid character. Use only letters, underscore and (n,m)") =
              .ok letters := hscan
          rw [if_pos hc] at h0
          exact h0
        rw [hp] at hbody
        have hbody2 : (if n < m then dpgScanF fuel rest2
            else Except.error "Invalid range. Must have 0 <= n < m") =
            Except.ok letters := hbody
        by_cases hnm : n < m
        · rw [if_pos hnm] at hbody2
          have hlen2 : rest2.length ≤ fuel := by
            have := parseRange_length (c :: rest) n m rest2 hp
            simp only [List.length_cons] at this hlen
            omega
          obtain ⟨ht, hch⟩ := ih rest2 letters hlen2 hbody2
          rw [htok]
          constructor
          · intro t htm c2 htc
            rcases List.mem_cons.mp htm with h0 | htm2
            · rw [h0] at htc; cases htc
            · exact ht t htm2 c2 htc
          · rw [charsOfU_cons_range n m _, hch]
        · rw [if_neg hnm] at hbody2
          cases hbody2


lemma expansion_chars {toks : List DToken} {pm : List Char} (h : Expansion toks pm) :
    (∀ t ∈ toks, ∀ c, t = DToken.chr c → (c.isAlpha = true ∨ c = '_')) →
    ∀ x ∈ pm, x.isAlpha = true ∨ x = '_' := by
  induction h with
  | nil =>
    intro _ x hx
    cases hx
  | chr c hsub ih =>
    intro hv x hx
    rcases List.mem_cons.mp hx with h0 | hx2
    · rw [h0]
      exact hv (DToken.chr c) (by simp) c rfl
    · exact ih (fun t ht c2 h2 => hv t (by simp [ht]) c2 h2) x hx2
  | rng n m k hnk hkm hsub ih =>
    intro hv x hx
    rcases List.mem_append.mp hx with hx1 | hx2
    · exact Or.inr (List.eq_of_mem_replicate hx1)
    · exact ih (fun t ht c2 h2 => hv t (by simp [ht]) c2 h2) x hx2

lemma expansion_count {toks : List DToken} {pm : List Char} (h : Expansion toks pm) :
    (∀ t ∈ toks, ∀ c, t = DToken.chr c → (c.isAlpha = true ∨ c = '_')) →
    ∀ L, L.isAlpha = true →
      (pm.map Char.toUpper).count L = (charsOfU toks).count L := by
  induction h with
  | nil =>
    intro _ L _
    rfl
  | chr c hsub ih =>
    intro hv L hL
    have htail := ih (fun t ht c2 h2 => hv t (by simp [ht]) c2 h2) L hL
    rcases hv (DToken.chr c) (by simp) c rfl with ha | ha
    · rw [List.map_cons, charsOfU_cons_chr_alpha c _ ha,
        List.count_cons, List.count_cons, htail]
    · rw [List.map_cons, charsOfU_cons_chr_not c _ (by rw [ha]; exact underscore_not_alpha)]
      rw [ha]
      have hLu : ¬ (L = Char.toUpper '_') := by
        intro hh
        rw [show Char.toUpper '_' = '_' from rfl] at hh
        rw [hh] at hL
        rw [underscore_not_alpha] at hL
        cases hL
      have hne : ¬ (L = '_') := fun hh => hLu (by rw [hh]; rfl)
      have hne2 : ¬ ('_' = L) := fun hh => hne hh.symm
      rw [List.count_cons, htail]
      simp [hLu, hne, hne2]
  | rng n m k hnk hkm hsub ih =>
    intro hv L hL
    have htail := ih (fun t ht c2 h2 => hv t (by simp [ht]) c2 h2) L hL
    rw [List.map_append, charsOfU_cons_range, List.count_append]
    have hrep : ((List.replicate k '_').map Char.toUpper).count L = 0 := by
      rw [List.map_replicate]
      rw [List.count_replicate]
      have : ¬ (L = Char.toUpper '_') := by
        intro hh
        rw [show Char.toUpper '_' = '_' from rfl] at hh
        rw [hh] at hL
        rw [underscore_not_alpha] at hL
        cases hL
      have hne : ¬ (L = '_') := fun hh => this (by rw [hh]; rfl)
      have hne2 : ¬ ('_' = L) := fun hh => hne hh.symm
      simp [this, hne, hne2]
    rw [hrep, htail]
    omega

lemma missingCount_congr_left (p1 p2 d : List Char)
    (h : ∀ c ∈ uppercaseAlphabet, p1.count c = p2.count c) :
    missingCount p1 d = missingCount p2 d := by
  unfold missingCount
  congr 1
  apply List.map_congr_left
  intro c hc
  rw [h c hc]

lemma dpgVerify_ok_facts (pattern deck : List Char)
    (h : dpgVerify pattern deck = .ok ()) :
    ∃ letters, dpgScan pattern = .ok letters ∧
      (∀ c ∈ deck.map Char.toUpper, c.isAlpha = true ∨ c = '-') ∧
      missingCount letters (deck.map Char.toUpper) ≤
        (deck.map Char.toUpper).count '-' := by
  unfold dpgVerify at h
  rcases hs : dpgScan pattern with e | letters
  · rw [hs] at h; cases h
  · rw [hs] at h
    have h3 : (if ¬ ((deck.map Char.toUpper).all fun c => c.isAlpha ∨ c = '-') then
          (.error "Deck can only contain letters and blanks" : Except String Unit)
        else if (deck.map Char.toUpper).count '-' <
            missingCount letters (deck.map Char.toUpper) then
          .error (mkInsufficientMsg (missingCount letters (deck.map Char.toUpper))
            ((deck.map Char.toUpper).count '-'))
        else .ok ()) = .ok () := h
    by_cases h1 : ((deck.map Char.toUpper).all fun c => c.isAlpha ∨ c = '-') = true
    · rw [if_neg (not_not_intro h1)] at h3
      by_cases h2 : (deck.map Char.toUpper).count '-' <
          missingCount letters (deck.map Char.toUpper)
      · rw [if_pos h2] at h3; cases h3
      · refine ⟨letters, rfl, ?_, by omega⟩
        intro c hc
        have := List.all_eq_true.mp h1 c hc
        simpa using this
    · rw [if_pos h1] at h3
      cases h3

/-- C6 (amended). When the dynamic pattern passes validation and no
expansion is the empty pattern, `DynamicPatternGenerator.generate` returns,
without duplicates, exactly the union over all choices of one run length
`k ∈ [n,m]` per range of the simple matcher's results on the corresponding
fixed pattern. -/
theorem pattern_expander_spec (pattern deck : List Char)
    (wordList : List (List Char))
    (hok : dpgVerify pattern deck = .ok ())
    (hne : ∀ pm ∈ dpgExpand (dpgTokenize pattern), pm ≠ []) :
    ∃ res, dpgGenerate pattern deck wordList = .ok res ∧ res.Nodup ∧
      (∀ w, w ∈ res ↔ ∃ pm, Expansion (dpgTokenize pattern) pm ∧
          ∃ l, spgGenerate pm deck wordList = .ok l ∧ w ∈ l) := by
  obtain ⟨letters, hscan, hdeck, hmiss⟩ := dpgVerify_ok_facts pattern deck hok
  obtain ⟨htv, hch⟩ := dpgScanF_facts pattern.length pattern letters le_rfl hscan
  have hallok : ∀ pm ∈ dpgExpand (dpgTokenize pattern),
      ∃ l, spgGenerate pm deck wordList = .ok l := by
    intro pm hpm
    have hexp := (mem_dpgExpand_iff _ _).mp hpm
    have hpmchars : ∀ x ∈ pm, x.isAlpha = true ∨ x = '_' :=
      expansion_chars hexp htv
    have hcount : ∀ L, L.isAlpha = true →
        (pm.map Char.toUpper).count L = letters.count L := by
      intro L hL
      have hch2 : charsOfU (dpgTokenize pattern) = letters := hch
      rw [expansion_count hexp htv L hL, hch2]
    have hmiss2 : missingCount (pm.map Char.toUpper) (deck.map Char.toUpper) ≤
        (deck.map Char.toUpper).count '-' := by
      rw [missingCount_congr_left (pm.map Char.toUpper) letters _
        (fun c hc => hcount c (alphabet_alpha c hc))]
      exact hmiss
    have hver : spgVerify pm deck = .ok () := by
      apply (spgVerify_ok_iff pm deck).mpr
      refine ⟨hne pm hpm, ?_, hdeck, hmiss2⟩
      intro c hc
      obtain ⟨c0, hc0, rfl⟩ := List.mem_map.mp hc
      rcases hpmchars c0 hc0 with ha | ha
      · exact Or.inl (toUpper_alpha c0 ha)
      · rw [ha]
        exact Or.inr rfl
    simp only [spgGenerate, hver]
    exact ⟨_, rfl⟩
  obtain ⟨res, hloop, hmem, hnd⟩ := dpgGenerateLoop_ok deck wordList
    (dpgExpand (dpgTokenize pattern)) hallok []
  refine ⟨res, ?_, hnd (by simp), ?_⟩
  · simp only [dpgGenerate, hok]
    exact hloop
  · intro w
    rw [hmem w]
    constructor
    · rintro (h | ⟨pm, hpm, l, hl, hw⟩)
      · cases h
      · exact ⟨pm, (mem_dpgExpand_iff _ _).mp hpm, l, hl, hw⟩
    · rintro ⟨pm, hpm, l, hl, hw⟩
      exact Or.inr ⟨pm, (mem_dpgExpand_iff _ _).mpr hpm, l, hl, hw⟩

/-- C6 counterexample. The pattern `(0,1)` passes the expander's own
validation, but `generate` raises the matcher's empty-pattern error (the
`k = 0` expansion is the empty pattern), instead of returning the union of
matches — although the expansion `_` (choice `k = 1`) does have matches. -/
theorem pattern_expander_claim_counterexample :
    dpgVerify ['(', '0', ',', '1', ')'] ['A'] = .ok () ∧
    dpgGenerate ['(', '0', ',', '1', ')'] ['A'] [['a']] =
      .error "Pattern cannot be empty" ∧
    Expansion (dpgTokenize ['(', '0', ',', '1', ')']) ['_'] ∧
    spgGenerate ['_'] ['A'] [['a']] = .ok [['A']] := by
  refine ⟨by rfl, by rfl, ?_, by rfl⟩
  show Expansion [DToken.range 0 1] ['_']
  exact Expansion.rng 0 1 1 (by omega) (by omega) Expansion.nil

/-- Witness for C6: the pattern `(1,2)` against rack `AB` collects, without
duplicates, the matches of `_` and `__`. -/
theorem pattern_expander_spec_witness :
    dpgGenerate ['(', '1', ',', '2', ')'] ['A', 'B'] [['a'], ['a', 'b'], ['b']] =
      .ok [['A'], ['B'], ['A', 'B']] ∧
    ([['A'], ['B'], ['A', 'B']] : List (List Char)).Nodup := by
  obtain ⟨res, hres, hnd, hiff⟩ := pattern_expander_spec
    ['(', '1', ',', '2', ')'] ['A', 'B'] [['a'], ['a', 'b'], ['b']]
    (by rfl) (by decide)
  have hcomp : dpgGenerate ['(', '1', ',', '2', ')'] ['A', 'B']
      [['a'], ['a', 'b'], ['b']] = .ok [['A'], ['B'], ['A', 'B']] := by rfl
  have hres2 : res = [['A'], ['B'], ['A', 'B']] :=
    Except.ok.inj (hres.symm.trans hcomp)
  exact ⟨hcomp, hres2 ▸ hnd⟩


/-! ### Recommender finalization (`prized_cells.py`, `crossword.py`,
`longest_word.py`) and the aggregator (`aggregate_recommender.py`).

The candidate-collection loops depend on the whole game state; the claims
under study are about what happens after collection, so the finalization
tails are embedded as functions of the collected `(score, additions)`
candidate list. Python attribute access on `self.ol` is modelled by a
method-table lookup: `OptimiserLength` (the full class body of
`longest_word.py`) defines no method named after the dedup helper, so its
table entry is `none`, and calling it raises `AttributeError` exactly as
CPython does. -/

inductive PyError where
  | attributeError (msg : String)
deriving DecidableEq, Repr

/-- `longest_word.py` defines no `_dedup_additions_sets` method on
`OptimiserLength`; the only occurrences of that name in the repository are
the two call sites in `prized_cells.py:116` and `crossword.py:128`. -/
def olDedupAdditionsSets : Option (List (List Addition) → List (List Addition)) :=
  none

def dedupErrMsg : String :=
  "'OptimiserLength' object has no attribute '_dedup_additions_sets'"

def callOlDedup (x : List (List Addition)) :
    Except PyError (List (List Addition)) :=
  match olDedupAdditionsSets with
  | none => .error (PyError.attributeError dedupErrMsg)
  | some f => .ok (f x)

/-- Python `max` over the scores of a non-empty candidate list. -/
def maxScoreOf (candidates : List (Int × List Addition)) : Int :=
  (candidates.map (·.1)).foldl max ((candidates.map (·.1)).headD 0)

/-- `OptimiserPrize.recommend_next_move`, lines 109-119: the tail after the
candidate loop. -/
def prizeFinalize (candidates : List (Int × List Addition)) :
    Except PyError (List (List Addition × Int)) :=
  if candidates = [] then .ok []
  else
    let maxScore := maxScoreOf candidates
    let best := (candidates.filter (fun p => p.1 = maxScore)).map
      (fun p => (p.2, p.1))
    let bestAdds := best.map (·.1)
    match callOlDedup bestAdds with
    | .error e => .error e
    | .ok deduped => .ok (deduped.map (fun adds => (adds, maxScore)))

/-- `OptimiserCrossword.recommend_next_move`, lines 121-131: textually the
same tail as the prize optimiser's. -/
def crossFinalize (candidates : List (Int × List Addition)) :
    Except PyError (List (List Addition × Int)) :=
  if candidates = [] then .ok []
  else
    let maxScore := maxScoreOf candidates
    let best := (candidates.filter (fun p => p.1 = maxScore)).map
      (fun p => (p.2, p.1))
    let bestAdds := best.map (·.1)
    match callOlDedup bestAdds with
    | .error e => .error e
    | .ok deduped => .ok (deduped.map (fun adds => (adds, maxScore)))

/-- `OptimiserLength.recommend_next_move`, lines 158-182: after scoring, it
returns the bare addition lists of maximal score — no scores attached. -/
def olFinalize (scored : List (Int × List Addition)) : List (List Addition) :=
  if scored = [] then []
  else
    let maxScore := maxScoreOf scored
    (scored.filter (fun p => p.1 = maxScore)).map (·.2)

/-- A value stored in the aggregator's result mapping: `OptimiserLength`
contributes bare addition lists, the other two contribute
`(additions, score)` pairs. -/
inductive MovesVal where
  | bare (moves : List (List Addition))
  | paired (moves : List (List Addition × Int))
deriving DecidableEq, Repr

/-- `AggregateRecommender.recommend_next_move`: on an empty board only the
prize optimiser runs, under key `PrizeCells`; otherwise all three run, in
source order, and an exception from any of them propagates. -/
def aggregateRecommend (boardEmpty : Bool)
    (olScored prizeCands crossCands : List (Int × List Addition)) :
    Except PyError (List (String × MovesVal)) :=
  if boardEmpty then
    match prizeFinalize prizeCands with
    | .error e => .error e
    | .ok pm => .ok [("PrizeCells", MovesVal.paired pm)]
  else
    let longest := MovesVal.bare (olFinalize olScored)
    match prizeFinalize prizeCands with
    | .error e => .error e
    | .ok pm =>
      match crossFinalize crossCands with
      | .error e => .error e
      | .ok cm =>
        .ok [("LongestWord", longest),
             ("PrizeCells", MovesVal.paired pm),
             ("Crossword", MovesVal.paired cm)]

/-- C3. Whenever the prize or crossword optimiser has collected at least one
candidate, its finalization calls the non-existent
`_dedup_additions_sets` on the `OptimiserLength` instance and raises
`AttributeError`; with no candidates both return `[]` normally. -/
theorem optimiser_dedup_attribute_error
    (candidates : List (Int × List Addition)) (h : candidates ≠ []) :
    prizeFinalize candidates = .error (PyError.attributeError dedupErrMsg) ∧
    crossFinalize candidates = .error (PyError.attributeError dedupErrMsg) ∧
    prizeFinalize [] = .ok [] ∧ crossFinalize [] = .ok [] := by
  refine ⟨?_, ?_, rfl, rfl⟩ <;>
    simp only [prizeFinalize, crossFinalize, if_neg h, callOlDedup,
      olDedupAdditionsSets]

theorem optimiser_dedup_attribute_error_witness :
    ([((4 : Int), [(('A' : Char), ((7 : Int), (7 : Int)))])] :
        List (Int × List Addition)) ≠ [] ∧
    prizeFinalize [(4, [('A', (7, 7))])] =
      .error (PyError.attributeError dedupErrMsg) := by
  refine ⟨by decide, ?_⟩
  exact (optimiser_dedup_attribute_error [(4, [('A', (7, 7))])] (by decide)).1

/-- C4 (code bug). The aggregator's key set matches the claim, but the value
under `LongestWord` is a bare list of placements with no scores attached
(`OptimiserLength.recommend_next_move` returns `best` additions only), so it
is never a list of `(placement, score)` pairs once a candidate exists; and
whenever the prize (or crossword) optimiser has a candidate, the whole
aggregator call raises `AttributeError` instead of returning a mapping. -/
theorem aggregator_claim_code_bug :
    aggregateRecommend true [] [] [] = .ok [("PrizeCells", MovesVal.paired [])] ∧
    aggregateRecommend false [(4, [('A', (7, 7))])] [] [] =
      .ok [("LongestWord", MovesVal.bare [[('A', (7, 7))]]),
           ("PrizeCells", MovesVal.paired []),
           ("Crossword", MovesVal.paired [])] ∧
    (∀ pairs, MovesVal.bare [[('A', (7, 7))]] ≠ MovesVal.paired pairs) ∧
    aggregateRecommend false [] [(4, [('A', (7, 7))])] [] =
      .error (PyError.attributeError dedupErrMsg) := by
  refine ⟨rfl, rfl, ?_, rfl⟩
  intro pairs h
  cases h

end Scrabble
